import Mathlib

/-!
# Verification of the scrapeme resilience/orchestration core

Shallow embedding, in Lean 4, of the components of the `scrapeme` repository
that the specification's testable properties talk about:

* `src/core/circuit_breaker.py` — the per-site `CircuitBreaker` state machine;
* `src/core/rate_limiter.py`    — the `TokenBucket` rate limiter;
* `src/core/retry.py`           — the retry policy (`selenium_retry`) and its
  classification of retryable exceptions;
* `src/core/url.py`             — `is_absolute_url`, `make_absolute_url`,
  `normalize_url` (together with the parts of Python's `urllib.parse` that
  `normalize_url` calls);
* `src/core/frames.py`          — `FramesNavigator.context`;
* `src/core/browser.py`         — `WebDriverPool.acquire`;
* `src/core/scraper.py` / `src/core/enhanced_scraper.py` — per-step field
  extraction;
* `src/runner.py`               — `process_site`.

Mutable Python objects become immutable Lean structures with operations that
return the updated structure; wall-clock reads (`time.time`, `time.monotonic`)
become explicit `now`/`elapsed` parameters; Python floats used for clock values
and token counts are modelled as rationals; exceptions become `Except`.
-/

namespace Scrapeme

/-! ## Circuit breaker (`src/core/circuit_breaker.py`) -/

/-- `CircuitState` enum: `CLOSED` (normal), `OPEN` (failing, reject),
`HALF_OPEN` (testing recovery). -/
inductive CircuitState where
  | CLOSED
  | OPEN
  | HALF_OPEN
deriving DecidableEq, Repr

/-- `CircuitBreakerConfig`: failure threshold, recovery timeout (seconds),
success threshold. Source defaults are 5, 60.0, 2. -/
structure CircuitBreakerConfig where
  failure_threshold : Nat := 5
  recovery_timeout : ℚ := 60
  success_threshold : Nat := 2
deriving DecidableEq, Repr

/-- The mutable state of one `CircuitBreaker` instance (its `_config`,
`_state`, `_failures`, `_successes` and `_last_failure_time` slots; the lock
serializes access and is not part of the sequential model). -/
structure CircuitBreaker where
  config : CircuitBreakerConfig
  state : CircuitState
  failures : Nat
  successes : Nat
  last_failure_time : Option ℚ
deriving DecidableEq, Repr

/-- `CircuitBreaker.__init__`: starts `CLOSED` with zero counters and no
recorded failure time. -/
def CircuitBreaker.init (config : CircuitBreakerConfig) : CircuitBreaker :=
  { config := config, state := .CLOSED, failures := 0, successes := 0,
    last_failure_time := none }

/-- `CircuitBreaker._maybe_attempt_reset`, with `time.time()` passed in as
`now`: if `OPEN` and the recovery timeout has elapsed since the last failure,
transition to `HALF_OPEN` and reset the half-open success counter. -/
def CircuitBreaker.maybe_attempt_reset (cb : CircuitBreaker) (now : ℚ) :
    CircuitBreaker :=
  match cb.last_failure_time with
  | some t =>
      if cb.state = .OPEN ∧ now - t ≥ cb.config.recovery_timeout then
        { cb with state := .HALF_OPEN, successes := 0 }
      else cb
  | none => cb

/-- `CircuitBreaker.record_success`: in `HALF_OPEN`, bump the success counter
and close the circuit (resetting failures) once it reaches the success
threshold; in `CLOSED`, reset the failure counter; in `OPEN`, no effect. -/
def CircuitBreaker.record_success (cb : CircuitBreaker) : CircuitBreaker :=
  if cb.state = .HALF_OPEN then
    let s := cb.successes + 1
    if s ≥ cb.config.success_threshold then
      { cb with state := .CLOSED, successes := s, failures := 0 }
    else
      { cb with successes := s }
  else if cb.state = .CLOSED then
    { cb with failures := 0 }
  else cb

/-- `CircuitBreaker.record_failure`, with `time.time()` passed in as `now`:
bump the failure counter and stamp the failure time; `HALF_OPEN` reopens
immediately; `CLOSED` opens once the counter reaches the failure threshold.
Note there is no `_maybe_attempt_reset` call here: in `OPEN` the state is
left `OPEN`. -/
def CircuitBreaker.record_failure (cb : CircuitBreaker) (now : ℚ) :
    CircuitBreaker :=
  let cb' := { cb with failures := cb.failures + 1, last_failure_time := some now }
  if cb'.state = .HALF_OPEN then { cb' with state := .OPEN }
  else if cb'.state = .CLOSED then
    if cb'.failures ≥ cb'.config.failure_threshold then { cb' with state := .OPEN }
    else cb'
  else cb'

/-- The `state` property: runs `_maybe_attempt_reset` lazily, then returns the
current state (paired with the possibly-updated breaker). -/
def CircuitBreaker.state_read (cb : CircuitBreaker) (now : ℚ) :
    CircuitState × CircuitBreaker :=
  let cb' := cb.maybe_attempt_reset now
  (cb'.state, cb')

/-- `CircuitBreaker.is_call_permitted`: lazy reset attempt, then permit unless
`OPEN`. -/
def CircuitBreaker.is_call_permitted (cb : CircuitBreaker) (now : ℚ) :
    Bool × CircuitBreaker :=
  let cb' := cb.maybe_attempt_reset now
  (cb'.state ≠ .OPEN, cb')

/-- A sequence of `record_failure` calls at the given times. -/
def CircuitBreaker.record_failures (cb : CircuitBreaker) (ts : List ℚ) :
    CircuitBreaker :=
  ts.foldl (fun b t => b.record_failure t) cb

/-! Helper lemmas about the breaker transitions. -/

theorem CircuitBreaker.record_failure_of_OPEN (cb : CircuitBreaker) (now : ℚ)
    (h : cb.state = .OPEN) : (cb.record_failure now).state = .OPEN := by
  simp [record_failure, h]

theorem CircuitBreaker.record_failures_OPEN (ts : List ℚ) :
    ∀ cb : CircuitBreaker, cb.state = .OPEN →
      (cb.record_failures ts).state = .OPEN := by
  induction ts with
  | nil => intro cb h; simpa [record_failures] using h
  | cons t ts ih =>
      intro cb h
      have : cb.record_failures (t :: ts) = (cb.record_failure t).record_failures ts := rfl
      rw [this]
      exact ih _ (cb.record_failure_of_OPEN t h)

theorem CircuitBreaker.record_failures_to_OPEN (ts : List ℚ) :
    ∀ cb : CircuitBreaker,
      cb.state = .CLOSED → cb.config.failure_threshold ≤ cb.failures + ts.length →
      0 < ts.length →
      (cb.record_failures ts).state = .OPEN := by
  induction ts with
  | nil => intro cb _ _ hpos; exact absurd hpos (by simp)
  | cons t ts ih =>
      intro cb hc hle _
      have hstep : cb.record_failures (t :: ts) = (cb.record_failure t).record_failures ts := rfl
      rw [hstep]
      by_cases hth : cb.failures + 1 ≥ cb.config.failure_threshold
      · have hopen : (cb.record_failure t).state = .OPEN := by
          simp [record_failure, hc, hth]
        exact record_failures_OPEN ts _ hopen
      · have hstate : (cb.record_failure t).state = .CLOSED := by
          simp [record_failure, hc, hth]
        have hfail : (cb.record_failure t).failures = cb.failures + 1 := by
          simp [record_failure, hc, hth]
        have hcfg : (cb.record_failure t).config = cb.config := by
          simp [record_failure, hc, hth]
        have hlen : 0 < ts.length := by
          by_contra hn
          have hz : ts.length = 0 := by omega
          simp only [List.length_cons, hz] at hle
          omega
        refine ih _ hstate ?_ hlen
        rw [hfail, hcfg]
        simp only [List.length_cons] at hle
        omega

/-- Iterated `record_success`. -/
theorem CircuitBreaker.record_success_iterate_to_CLOSED (k : Nat) :
    ∀ cb : CircuitBreaker, cb.state = .HALF_OPEN →
      cb.successes + k = cb.config.success_threshold → 0 < k →
      (CircuitBreaker.record_success^[k] cb).state = .CLOSED ∧
      (CircuitBreaker.record_success^[k] cb).failures = 0 := by
  induction k with
  | zero => intro cb _ _ hpos; exact absurd hpos (by simp)
  | succ k ih =>
      intro cb hh hsum _
      rw [Function.iterate_succ_apply]
      by_cases hk : k = 0
      · subst hk
        have hge : cb.successes + 1 ≥ cb.config.success_threshold := by omega
        simp [record_success, hh, hge]
      · have hlt : ¬ cb.successes + 1 ≥ cb.config.success_threshold := by omega
        have hstate : cb.record_success =
            { cb with successes := cb.successes + 1 } := by
          simp [record_success, hh, hlt]
        refine ih _ ?_ ?_ (by omega) <;> rw [hstate]
        · exact hh
        · simpa using by omega

/-- C1 (counterexample). The claim asserts that, from `OPEN`, a
`record_failure` call occurring at least `recovery_timeout` after the last
recorded failure drives the breaker to `HALF_OPEN`.  It does not:
`record_failure` never runs `_maybe_attempt_reset`, so the breaker stays
`OPEN`.  Concretely, with thresholds (1, 1, 1), one failure at time 0 opens
the breaker, and a second failure at time 5 (≥ 1 after the last failure)
leaves it `OPEN`, not `HALF_OPEN`. -/
theorem circuitBreaker_record_failure_in_OPEN_cex :
    (((CircuitBreaker.init ⟨1, 1, 1⟩).record_failure 0).record_failure 5).state
        = .OPEN ∧
    (((CircuitBreaker.init ⟨1, 1, 1⟩).record_failure 0).state = .OPEN ∧
      ((CircuitBreaker.init ⟨1, 1, 1⟩).record_failure 0).last_failure_time = some 0) ∧
    CircuitState.OPEN ≠ CircuitState.HALF_OPEN := by
  refine ⟨by decide, ⟨by decide, by decide⟩, by decide⟩

/-- C1 (amended transition law). For every breaker with strictly positive
failure threshold `F`, recovery timeout `T` and success threshold `S`:
(1) starting `CLOSED`, `F` consecutive `record_failure` calls (at arbitrary
times, no intervening `record_success`) drive the state to `OPEN`;
(2) from `OPEN`, a state read (the `state` property or `is_call_permitted`)
at least `T` after the last recorded failure drives it to `HALF_OPEN` and
resets the half-open success counter — a `record_failure` in `OPEN`, by
contrast, leaves it `OPEN` and merely re-stamps the failure time;
(3) a single `record_failure` in `HALF_OPEN` drives it back to `OPEN`;
(4) `S` consecutive `record_success` calls from freshly-entered `HALF_OPEN`
drive it to `CLOSED` and reset the failure counter. -/
theorem circuitBreaker_transition_law (cfg : CircuitBreakerConfig)
    (hF : 0 < cfg.failure_threshold) (hT : 0 < cfg.recovery_timeout)
    (hS : 0 < cfg.success_threshold) :
    (∀ (cb : CircuitBreaker) (ts : List ℚ), cb.config = cfg →
        cb.state = .CLOSED → ts.length = cfg.failure_threshold →
        (cb.record_failures ts).state = .OPEN) ∧
    (∀ (cb : CircuitBreaker) (t now : ℚ), cb.config = cfg →
        cb.state = .OPEN → cb.last_failure_time = some t →
        now - t ≥ cfg.recovery_timeout →
        cb.state_read now =
          (.HALF_OPEN, { cb with state := .HALF_OPEN, successes := 0 }) ∧
        cb.is_call_permitted now =
          (true, { cb with state := .HALF_OPEN, successes := 0 })) ∧
    (∀ (cb : CircuitBreaker) (now : ℚ), cb.state = .OPEN →
        (cb.record_failure now).state = .OPEN ∧
        (cb.record_failure now).last_failure_time = some now) ∧
    (∀ (cb : CircuitBreaker) (now : ℚ), cb.state = .HALF_OPEN →
        (cb.record_failure now).state = .OPEN) ∧
    (∀ cb : CircuitBreaker, cb.config = cfg → cb.state = .HALF_OPEN →
        cb.successes = 0 →
        (CircuitBreaker.record_success^[cfg.success_threshold] cb).state = .CLOSED ∧
        (CircuitBreaker.record_success^[cfg.success_threshold] cb).failures = 0) := by
  refine ⟨?_, ?_, ?_, ?_, ?_⟩
  · intro cb ts hcfg hc hlen
    exact CircuitBreaker.record_failures_to_OPEN ts cb hc
      (by rw [hlen, hcfg]; omega) (by rw [hlen]; exact hF)
  · intro cb t now hcfg ho hlast helapsed
    constructor <;>
      simp [CircuitBreaker.state_read, CircuitBreaker.is_call_permitted,
        CircuitBreaker.maybe_attempt_reset, hlast, ho, hcfg, helapsed]
  · intro cb now ho
    constructor
    · exact cb.record_failure_of_OPEN now ho
    · simp [CircuitBreaker.record_failure, ho]
  · intro cb now hh
    simp [CircuitBreaker.record_failure, hh]
  · intro cb hcfg hh hz
    exact CircuitBreaker.record_success_iterate_to_CLOSED cfg.success_threshold cb hh
      (by rw [hz, hcfg]; omega) (by omega)

/-- Witness for `circuitBreaker_transition_law` at the concrete configuration
(2, 3, 2): two failures from a fresh breaker open the circuit. -/
theorem circuitBreaker_transition_law_witness :
    ((CircuitBreaker.init ⟨2, 3, 2⟩).record_failures [10, 20]).state = .OPEN :=
  (circuitBreaker_transition_law ⟨2, 3, 2⟩ (by decide) (by decide) (by decide)).1
    (CircuitBreaker.init ⟨2, 3, 2⟩) [10, 20] rfl rfl rfl

/-! ## Token bucket (`src/core/rate_limiter.py`) -/

/-- The state of one `TokenBucket` (`_capacity`, `_tokens`, `_fill_rate`).
`_last_update` is replaced by passing the elapsed time since the previous
update explicitly to each operation; `time.monotonic()` guarantees the
elapsed time is nonnegative. -/
structure TokenBucket where
  capacity : ℤ
  tokens : ℚ
  fill_rate : ℚ
deriving DecidableEq, Repr

/-- `TokenBucket.__init__(capacity, fill_rate)`: starts full. -/
def TokenBucket.init (capacity : ℤ) (fill_rate : ℚ) : TokenBucket :=
  { capacity := capacity, tokens := (capacity : ℚ), fill_rate := fill_rate }

/-- `TokenBucket._refill`: add `elapsed * fill_rate` tokens, capped at
capacity. -/
def TokenBucket.refill (tb : TokenBucket) (elapsed : ℚ) : TokenBucket :=
  { tb with tokens := min (tb.capacity : ℚ) (tb.tokens + elapsed * tb.fill_rate) }

/-- `TokenBucket.consume(tokens)`: refill lazily, then subtract and return
`True` if enough tokens are available, else return `False`. -/
def TokenBucket.consume (tb : TokenBucket) (elapsed : ℚ) (tokens : ℤ) :
    Bool × TokenBucket :=
  let tb' := tb.refill elapsed
  if tb'.tokens ≥ (tokens : ℚ) then
    (true, { tb' with tokens := tb'.tokens - (tokens : ℚ) })
  else
    (false, tb')

/-- A finite sequence of `consume` calls, each preceded by an arbitrary
elapsed time. -/
def TokenBucket.runConsumes (tb : TokenBucket) (ops : List (ℚ × ℤ)) :
    TokenBucket :=
  ops.foldl (fun b op => (b.consume op.1 op.2).2) tb

theorem TokenBucket.consume_preserves (tb : TokenBucket) (e : ℚ) (n : ℤ)
    (htok₀ : 0 ≤ tb.tokens) (htok₁ : tb.tokens ≤ (tb.capacity : ℚ))
    (hcap : 0 ≤ tb.capacity) (hfill : 0 ≤ tb.fill_rate) (he : 0 ≤ e)
    (hn : 0 ≤ n) :
    0 ≤ (tb.consume e n).2.tokens ∧
      (tb.consume e n).2.tokens ≤ ((tb.consume e n).2.capacity : ℚ) ∧
      (tb.consume e n).2.capacity = tb.capacity ∧
      (tb.consume e n).2.fill_rate = tb.fill_rate := by
  have hr₀ : 0 ≤ (tb.refill e).tokens := by
    simp only [refill]
    have : (0 : ℚ) ≤ tb.tokens + e * tb.fill_rate :=
      add_nonneg htok₀ (mul_nonneg he hfill)
    exact le_min (by exact_mod_cast hcap) this
  have hr₁ : (tb.refill e).tokens ≤ (tb.capacity : ℚ) := by
    simp only [refill]
    exact min_le_left _ _
  have hn' : (0 : ℚ) ≤ (n : ℚ) := by exact_mod_cast hn
  by_cases h : (tb.refill e).tokens ≥ (n : ℚ)
  · have hc : tb.consume e n =
        (true, { tb.refill e with tokens := (tb.refill e).tokens - (n : ℚ) }) := by
      simp [consume, h]
    rw [hc]
    refine ⟨?_, ?_, rfl, rfl⟩
    · show 0 ≤ (tb.refill e).tokens - (n : ℚ)
      linarith
    · show (tb.refill e).tokens - (n : ℚ) ≤ (tb.capacity : ℚ)
      linarith
  · have hc : tb.consume e n = (false, tb.refill e) := by
      simp [consume, h]
    rw [hc]
    exact ⟨hr₀, hr₁, rfl, rfl⟩

theorem TokenBucket.runConsumes_invariant (ops : List (ℚ × ℤ)) :
    ∀ tb : TokenBucket, 0 ≤ tb.tokens → tb.tokens ≤ (tb.capacity : ℚ) →
      0 ≤ tb.capacity → 0 ≤ tb.fill_rate →
      (∀ op ∈ ops, 0 ≤ op.1 ∧ 0 ≤ op.2) →
      0 ≤ (tb.runConsumes ops).tokens ∧
        (tb.runConsumes ops).tokens ≤ ((tb.runConsumes ops).capacity : ℚ) ∧
        (tb.runConsumes ops).capacity = tb.capacity := by
  induction ops with
  | nil => intro tb h₀ h₁ _ _ _; exact ⟨h₀, h₁, rfl⟩
  | cons op ops ih =>
      intro tb h₀ h₁ hcap hfill hops
      have hop := hops op (by simp)
      have hstep := tb.consume_preserves op.1 op.2 h₀ h₁ hcap hfill hop.1 hop.2
      have hrec : tb.runConsumes (op :: ops) =
          ((tb.consume op.1 op.2).2).runConsumes ops := rfl
      rw [hrec]
      have := ih (tb.consume op.1 op.2).2 hstep.1 hstep.2.1
        (hstep.2.2.1 ▸ hcap) (hstep.2.2.2 ▸ hfill)
        (fun o ho => hops o (by simp [ho]))
      exact ⟨this.1, this.2.1, this.2.2.trans hstep.2.2.1⟩

/-- C2 (counterexample). The claim quantifies over every finite sequence of
`consume(n)` calls, but `consume` accepts any Python `int`, including negative
ones, and performs no clamping on the subtraction: on a full bucket of
capacity 1, `consume(-1)` succeeds and leaves 2 tokens, exceeding the
capacity. -/
theorem tokenBucket_negative_consume_cex :
    (TokenBucket.init 1 1).consume 0 (-1) =
      (true, { capacity := 1, tokens := 2, fill_rate := 1 }) ∧
    ¬ ((2 : ℚ) ≤ ((1 : ℤ) : ℚ)) := by
  constructor
  · norm_num [TokenBucket.init, TokenBucket.consume, TokenBucket.refill,
      min_def, Prod.ext_iff]
  · norm_num

/-- C2 (amended). For every `TokenBucket` with strictly positive capacity and
fill rate, and every finite sequence of `consume(n)` calls with nonnegative
`n`, interleaved with arbitrary nonnegative elapsed times, the token count
stays in `[0, capacity]`; and each individual `consume(n)` call (for any `n`)
returns `True` and subtracts `n` exactly when the lazily-refilled token count
is at least `n`, leaving the refilled count unchanged on a `False` return. -/
theorem tokenBucket_conservation (capacity : ℤ) (fill_rate : ℚ)
    (hcap : 0 < capacity) (hfill : 0 < fill_rate) :
    (∀ ops : List (ℚ × ℤ), (∀ op ∈ ops, 0 ≤ op.1 ∧ 0 ≤ op.2) →
        0 ≤ ((TokenBucket.init capacity fill_rate).runConsumes ops).tokens ∧
        ((TokenBucket.init capacity fill_rate).runConsumes ops).tokens
          ≤ (capacity : ℚ)) ∧
    (∀ (tb : TokenBucket) (elapsed : ℚ) (n : ℤ),
        ((tb.consume elapsed n).1 = true ↔ (n : ℚ) ≤ (tb.refill elapsed).tokens) ∧
        ((tb.consume elapsed n).1 = true →
          (tb.consume elapsed n).2.tokens = (tb.refill elapsed).tokens - (n : ℚ)) ∧
        ((tb.consume elapsed n).1 = false →
          (tb.consume elapsed n).2.tokens = (tb.refill elapsed).tokens)) := by
  constructor
  · intro ops hops
    have h := TokenBucket.runConsumes_invariant ops
      (TokenBucket.init capacity fill_rate)
      (show (0 : ℚ) ≤ ((capacity : ℤ) : ℚ) by exact_mod_cast hcap.le)
      (le_refl ((capacity : ℤ) : ℚ)) hcap.le (le_of_lt hfill) hops
    refine ⟨h.1, ?_⟩
    have h2 := h.2.1
    rw [h.2.2] at h2
    exact h2
  · intro tb elapsed n
    by_cases h : (tb.refill elapsed).tokens ≥ (n : ℚ)
    · refine ⟨?_, ?_, ?_⟩ <;> simpa [TokenBucket.consume, h] using h
    · refine ⟨?_, ?_, ?_⟩ <;> simpa [TokenBucket.consume, h] using h

/-- Witness for `tokenBucket_conservation`: capacity 2, fill rate 1, the
sequence "consume 1, wait 3 time units, consume 2". -/
theorem tokenBucket_conservation_witness :
    0 ≤ ((TokenBucket.init 2 1).runConsumes [(0, 1), (3, 2)]).tokens ∧
    ((TokenBucket.init 2 1).runConsumes [(0, 1), (3, 2)]).tokens ≤ (2 : ℚ) :=
  (tokenBucket_conservation 2 1 (by decide) (by decide)).1 [(0, 1), (3, 2)]
    (by decide)

/-! ## Retry policy (`src/core/retry.py`) -/

/-- The exception classes relevant to `RETRYABLE_EXCEPTIONS`, plus
`NoSuchFrameException` and its intermediate base class (examples of Selenium
errors *not* listed in the frozenset), Python's `ValueError` (an example of
a non-Selenium error), and Python's `TypeError` (raised by `isinstance`
itself when its second argument is not a class, a tuple of classes or a
union).  The subclass relation below follows `selenium.common.exceptions`
(Selenium 4), where `WebDriverException` is the base class of every Selenium
exception. -/
inductive ExcKind where
  | WebDriverException
  | TimeoutException
  | StaleElementReferenceException
  | NoSuchElementException
  | ElementClickInterceptedException
  | InvalidElementStateException
  | ElementNotInteractableException
  | InvalidSwitchToTargetException
  | NoSuchFrameException
  | ValueError
  | TypeError
deriving DecidableEq, Repr, Fintype

/-- The inheritance chain (the class itself followed by its base classes, up
to but excluding Python's root `Exception`):
`TimeoutException(WebDriverException)`,
`StaleElementReferenceException(WebDriverException)`,
`NoSuchElementException(WebDriverException)`,
`ElementClickInterceptedException(WebDriverException)`,
`InvalidElementStateException(WebDriverException)`,
`ElementNotInteractableException(InvalidElementStateException)`,
`InvalidSwitchToTargetException(WebDriverException)`,
`NoSuchFrameException(InvalidSwitchToTargetException)`. -/
def ExcKind.ancestors : ExcKind → List ExcKind
  | .WebDriverException => [.WebDriverException]
  | .TimeoutException => [.TimeoutException, .WebDriverException]
  | .StaleElementReferenceException =>
      [.StaleElementReferenceException, .WebDriverException]
  | .NoSuchElementException => [.NoSuchElementException, .WebDriverException]
  | .ElementClickInterceptedException =>
      [.ElementClickInterceptedException, .WebDriverException]
  | .InvalidElementStateException =>
      [.InvalidElementStateException, .WebDriverException]
  | .ElementNotInteractableException =>
      [.ElementNotInteractableException, .InvalidElementStateException,
        .WebDriverException]
  | .InvalidSwitchToTargetException =>
      [.InvalidSwitchToTargetException, .WebDriverException]
  | .NoSuchFrameException =>
      [.NoSuchFrameException, .InvalidSwitchToTargetException,
        .WebDriverException]
  | .ValueError => [.ValueError]
  | .TypeError => [.TypeError]

/-- Python's `isinstance(e, k)` for exception instances of class `e`. -/
def ExcKind.isinstance (e k : ExcKind) : Bool := k ∈ e.ancestors

/-- A Python `classinfo` argument to `isinstance`: a class, a tuple of
classes — or, as `src/core/retry.py` actually passes, a `frozenset` of
classes, which is not a valid `classinfo` at all. -/
inductive ClassInfo where
  | ofClass : ExcKind → ClassInfo
  | ofTuple : List ExcKind → ClassInfo
  | ofFrozenset : List ExcKind → ClassInfo
deriving DecidableEq, Repr

/-- Python's `isinstance(e, classinfo)` on an exception instance `e`: a
class or a tuple of classes tests membership in the instance's MRO; any
other second argument raises `TypeError` ("isinstance() arg 2 must be a
type, a tuple of types, or a union") before looking at `e` at all
(CPython 3.11). -/
def pyIsinstance (e : ExcKind) : ClassInfo → Except ExcKind Bool
  | .ofClass k => .ok (e.isinstance k)
  | .ofTuple ks => .ok (ks.any (fun k => e.isinstance k))
  | .ofFrozenset _ => .error .TypeError

/-- `RETRYABLE_EXCEPTIONS` from `src/core/retry.py` lines 32–41: the
**frozenset** `frozenset((TimeoutException, StaleElementReferenceException,
NoSuchElementException, ElementClickInterceptedException,
ElementNotInteractableException, WebDriverException))`. -/
def RETRYABLE_EXCEPTIONS : ClassInfo :=
  .ofFrozenset
    [.TimeoutException, .StaleElementReferenceException,
      .NoSuchElementException, .ElementClickInterceptedException,
      .ElementNotInteractableException, .WebDriverException]

/-- tenacity's `retry_if_exception_type(classinfo)` (external library code,
translated from its source): its predicate is literally
`lambda e: isinstance(e, classinfo)` — the constructor stores `classinfo`
with no coercion to a tuple, so the predicate itself can raise. -/
def retry_if_exception_type (classinfo : ClassInfo) (e : ExcKind) :
    Except ExcKind Bool :=
  pyIsinstance e classinfo

/-- The tenacity driver loop behind `selenium_retry` (`retry(reraise=True,
stop=stop_after_attempt(3), wait=…, retry=pred)`), translated from the
external tenacity library source (not repository code) and checked against
it by execution: each attempt runs the action; on success the value is
returned (the predicate of `retry_if_exception_type` returns `False`
without calling `isinstance` when the outcome is not a failure); on an
exception `BaseRetrying.iter` first consults the retry predicate — an
exception raised by the predicate itself propagates to the caller, masking
the action's error — then a `False` answer re-raises the action's error,
and on `True` the stop condition is checked: once attempts are exhausted,
`reraise=True` re-raises the last action error unchanged, otherwise the
action is retried.  `action k` is the outcome of the `k`-th invocation
(1-based) of the wrapped action; `remaining` is the number of attempts the
stop condition still allows after the current one.  The result pairs the
final outcome with the number of times the action was invoked.  Backoff
sleeps do not affect the outcome and are omitted. -/
def selenium_retry_go {α : Type} (pred : ExcKind → Except ExcKind Bool)
    (action : Nat → Except ExcKind α) : Nat → Nat → Except ExcKind α × Nat
  | k, remaining =>
    match action k with
    | .ok a => (.ok a, k)
    | .error e =>
      match pred e with
      | .error te => (.error te, k)
      | .ok false => (.error e, k)
      | .ok true =>
        match remaining with
        | 0 => (.error e, k)
        | r + 1 => selenium_retry_go pred action (k + 1) r

/-- `selenium_retry` (`src/core/retry.py` lines 84–91):
`stop=stop_after_attempt(3)`, so the first attempt is number 1 and at most
two further attempts may follow; the retry predicate is
`retry_if_exception_type(RETRYABLE_EXCEPTIONS)` with the frozenset. -/
def selenium_retry {α : Type} (action : Nat → Except ExcKind α) :
    Except ExcKind α × Nat :=
  selenium_retry_go (retry_if_exception_type RETRYABLE_EXCEPTIONS) action 1 2

/-- C4 (code bug). The policy is configured for 3 attempts, but
`retry.py:88` hands the frozenset `RETRYABLE_EXCEPTIONS` to
`retry_if_exception_type`, whose predicate calls
`isinstance(e, frozenset)` — a `TypeError` in Python.  So for every wrapped
action: a first-attempt failure of any kind means the action is invoked
exactly once and the caller sees `TypeError`, not the raised error after 3
attempts (and `TypeError` differs from the raised `TimeoutException`); only
a first-attempt success returns, after one invocation. -/
theorem selenium_retry_bound {α : Type} (action : Nat → Except ExcKind α) :
    (∀ e, action 1 = .error e →
        selenium_retry action = (.error .TypeError, 1)) ∧
    (∀ a, action 1 = .ok a → selenium_retry action = (.ok a, 1)) ∧
    ExcKind.TypeError ≠ ExcKind.TimeoutException := by
  refine ⟨?_, ?_, by decide⟩
  · intro e he
    simp [selenium_retry, selenium_retry_go, he, retry_if_exception_type,
      pyIsinstance, RETRYABLE_EXCEPTIONS]
  · intro a ha
    simp [selenium_retry, selenium_retry_go, ha]

/-- Witness for `selenium_retry_bound`: an action always raising
`TimeoutException` — a member of the frozenset, transient by intent — is
invoked once and `TypeError` propagates (with a tuple instead of the
frozenset the same loop would give `(.error .TimeoutException, 3)`). -/
theorem selenium_retry_bound_witness :
    selenium_retry (fun _ => (Except.error ExcKind.TimeoutException :
        Except ExcKind Unit)) = (.error .TypeError, 1) ∧
    selenium_retry_go
        (retry_if_exception_type (.ofTuple
          [.TimeoutException, .StaleElementReferenceException,
            .NoSuchElementException, .ElementClickInterceptedException,
            .ElementNotInteractableException, .WebDriverException]))
        (fun _ => (Except.error ExcKind.TimeoutException :
          Except ExcKind Unit)) 1 2 =
      (.error .TimeoutException, 3) :=
  ⟨(selenium_retry_bound _).1 ExcKind.TimeoutException rfl, rfl⟩

/-- C5 (code bug). The configured predicate classifies nothing: for every
error kind — in the frozenset or not — `isinstance(e, frozenset)` raises
`TypeError`, so no error is ever retried and no error ever reaches the
caller unchanged: every first-attempt failure ends after exactly one
invocation with `TypeError`, which is neither the `ValueError` the claim
says would propagate unchanged nor the `NoSuchFrameException` of a
would-be transient Selenium failure. -/
theorem selenium_retry_classification :
    (∀ e : ExcKind,
        retry_if_exception_type RETRYABLE_EXCEPTIONS e
          = .error ExcKind.TypeError) ∧
    (∀ (e : ExcKind) (f : Nat → Except ExcKind Unit), f 1 = .error e →
        selenium_retry f = (.error .TypeError, 1)) ∧
    ExcKind.TypeError ≠ ExcKind.ValueError ∧
    ExcKind.TypeError ≠ ExcKind.NoSuchFrameException := by
  refine ⟨fun e => rfl, ?_, by decide, by decide⟩
  intro e f hf
  simp [selenium_retry, selenium_retry_go, hf, retry_if_exception_type,
    pyIsinstance, RETRYABLE_EXCEPTIONS]

/-- Witness for `selenium_retry_classification`: a `ValueError`-raising
action (claimed to propagate its error unchanged after one attempt) and a
`NoSuchFrameException`-raising one both surface `TypeError` after exactly
one invocation. -/
theorem selenium_retry_classification_witness :
    selenium_retry (fun _ => (Except.error ExcKind.ValueError :
        Except ExcKind Unit)) = (.error .TypeError, 1) ∧
    selenium_retry (fun _ => (Except.error ExcKind.NoSuchFrameException :
        Except ExcKind Unit)) = (.error .TypeError, 1) :=
  ⟨selenium_retry_classification.2.1 ExcKind.ValueError _ rfl,
    selenium_retry_classification.2.1 ExcKind.NoSuchFrameException _ rfl⟩

/-! ## URL helpers (`src/core/url.py`)

Python strings are modelled as `List Char`. -/

/-- Python's `str.isspace` character classification (the characters stripped
by `str.strip()` with no argument): ASCII whitespace, the C0 separator
controls 0x1C–0x1F, and the Unicode whitespace code points. -/
def isPySpace (c : Char) : Bool :=
  (9 ≤ c.toNat ∧ c.toNat ≤ 13) ∨ (28 ≤ c.toNat ∧ c.toNat ≤ 32) ∨
    c.toNat = 0x85 ∨ c.toNat = 0xA0 ∨ c.toNat = 0x1680 ∨
    (0x2000 ≤ c.toNat ∧ c.toNat ≤ 0x200A) ∨ c.toNat = 0x2028 ∨
    c.toNat = 0x2029 ∨ c.toNat = 0x202F ∨ c.toNat = 0x205F ∨ c.toNat = 0x3000

/-- Python's `str.strip()`: drop whitespace from both ends. -/
def pyStrip (s : List Char) : List Char :=
  (s.dropWhile isPySpace).rdropWhile isPySpace

/-- Python's `str.rstrip("/")`: drop trailing slashes. -/
def rstripSlash (s : List Char) : List Char :=
  (s.reverse.dropWhile (fun c => c = '/')).reverse

/-- `is_absolute_url`: empty is not absolute; otherwise strip and test for an
`http://` or `https://` prefix. -/
def is_absolute_url (url : List Char) : Bool :=
  if url = [] then false
  else
    let url := pyStrip url
    "http://".data.isPrefixOf url || "https://".data.isPrefixOf url

/-- `make_absolute_url(url, base_url)`: reject empty/whitespace-only `url`;
return an already-absolute `url` (stripped) as-is; otherwise require an
absolute `base_url` and concatenate `base_url.rstrip("/")` with `url`
prefixed by a `/` if it lacks one. -/
def make_absolute_url (url base_url : List Char) : Except String (List Char) :=
  if url = [] ∨ url.all isPySpace then .error "URL cannot be empty"
  else
    let url := pyStrip url
    if is_absolute_url url then .ok url
    else if base_url = [] ∨ is_absolute_url base_url = false then
      .error "Cannot make absolute URL: relative URL but invalid base_url"
    else
      let base := rstripSlash base_url
      let url' := if url.head? = some '/' then url else '/' :: url
      .ok (base ++ url')

theorem head?_dropWhile_not {α : Type} (p : α → Bool) (l : List α) (b : α)
    (h : (l.dropWhile p).head? = some b) : p b = false := by
  induction l with
  | nil => simp at h
  | cons a l ih =>
      by_cases hp : p a
      · rw [List.dropWhile_cons_of_pos hp] at h
        exact ih h
      · rw [List.dropWhile_cons_of_neg hp] at h
        simp only [List.head?_cons, Option.some.injEq] at h
        subst h
        simpa using hp

theorem pyStrip_idem (s : List Char) : pyStrip (pyStrip s) = pyStrip s := by
  unfold pyStrip
  obtain ⟨t, ht⟩ := List.rdropWhile_prefix isPySpace (s.dropWhile isPySpace)
  have h1 : ((s.dropWhile isPySpace).rdropWhile isPySpace).dropWhile isPySpace
      = (s.dropWhile isPySpace).rdropWhile isPySpace := by
    cases hB : (s.dropWhile isPySpace).rdropWhile isPySpace with
    | nil => simp
    | cons b bs =>
        rw [hB] at ht
        have hpb : isPySpace b = false :=
          head?_dropWhile_not isPySpace s b (by rw [← ht]; rfl)
        simp [List.dropWhile_cons, hpb]
  rw [h1, List.rdropWhile_idempotent]

theorem pyStrip_eq_nil_of_all (url : List Char) (h : url.all isPySpace = true) :
    pyStrip url = [] := by
  unfold pyStrip
  have hd : url.dropWhile isPySpace = [] :=
    List.dropWhile_eq_nil_iff.mpr (fun x hx => List.all_eq_true.mp h x hx)
  simp [hd]

/-- C10. Relative-URL resolution is plain string concatenation:
(1) an already-absolute (after stripping) `url` is returned stripped,
`base_url` ignored; (2) a whitespace-only (or empty) `url` is a `ValueError`,
as is a relative `url` with a non-absolute `base_url`; (3) otherwise the
result is exactly `base_url` with trailing slashes removed, then the stripped
`url` with a leading `/` ensured — no RFC 3986 resolution, as the concrete
instance shows: `..` segments survive and the base URL's own path stays. -/
theorem make_absolute_url_spec :
    (∀ url base_url : List Char,
        ("http://".data.isPrefixOf (pyStrip url) ∨
          "https://".data.isPrefixOf (pyStrip url)) →
        make_absolute_url url base_url = .ok (pyStrip url)) ∧
    (∀ url base_url : List Char, url.all isPySpace = true →
        make_absolute_url url base_url = .error "URL cannot be empty") ∧
    (∀ url base_url : List Char, url.all isPySpace = false →
        is_absolute_url (pyStrip url) = false →
        is_absolute_url base_url = false →
        make_absolute_url url base_url =
          .error "Cannot make absolute URL: relative URL but invalid base_url") ∧
    (∀ url base_url : List Char, url.all isPySpace = false →
        is_absolute_url (pyStrip url) = false →
        is_absolute_url base_url = true →
        make_absolute_url url base_url =
          .ok (rstripSlash base_url ++
            (if (pyStrip url).head? = some '/' then pyStrip url
              else '/' :: pyStrip url))) ∧
    make_absolute_url "../up".data "http://h/base/".data =
      .ok "http://h/base/../up".data := by
  refine ⟨?_, ?_, ?_, ?_, by rfl⟩
  · intro url base_url h
    have h' : "http://".data <+: pyStrip url ∨ "https://".data <+: pyStrip url := by
      rcases h with h | h
      · exact Or.inl (List.isPrefixOf_iff_prefix.mp h)
      · exact Or.inr (List.isPrefixOf_iff_prefix.mp h)
    have hne : pyStrip url ≠ [] := by
      rcases h' with ⟨t, ht⟩ | ⟨t, ht⟩ <;> rw [← ht] <;> simp
    have hnall : url.all isPySpace = false := by
      cases hall : url.all isPySpace with
      | false => rfl
      | true => exact absurd (pyStrip_eq_nil_of_all url hall) hne
    have hnnil : url ≠ [] := by
      intro hc; subst hc
      exact hne (by simp [pyStrip])
    have habs : is_absolute_url (pyStrip url) = true := by
      unfold is_absolute_url
      rw [if_neg hne, pyStrip_idem]
      rcases h with h | h <;> simp [h]
    unfold make_absolute_url
    rw [if_neg (by simp [hnnil, hnall])]
    simp [habs]
  · intro url base_url h
    unfold make_absolute_url
    rw [if_pos (Or.inr h)]
  · intro url base_url hnall hrel hbase
    have hnnil : url ≠ [] := by
      intro hc; subst hc; simp at hnall
    unfold make_absolute_url
    rw [if_neg (by simp [hnnil, hnall])]
    simp [hrel, hbase]
  · intro url base_url hnall hrel hbase
    have hnnil : url ≠ [] := by
      intro hc; subst hc; simp at hnall
    have hbnnil : base_url ≠ [] := by
      intro hc; subst hc; simp [is_absolute_url] at hbase
    unfold make_absolute_url
    rw [if_neg (by simp [hnnil, hnall])]
    simp [hrel, hbase, hbnnil]

/-- Witness for `make_absolute_url_spec`: an absolute `url` is returned
stripped with the base ignored. -/
theorem make_absolute_url_spec_witness :
    make_absolute_url "  http://x/y ".data "http://ignored".data =
      .ok "http://x/y".data :=
  make_absolute_url_spec.1 "  http://x/y ".data "http://ignored".data
    (Or.inl (by decide))

/-! ## Frame navigation (`src/core/frames.py`)

The WebDriver frame context is modelled by its nesting depth: `0` is the
top-level document, a successful `switch_to.frame` adds one level,
`switch_to.parent_frame()` removes one (staying at the top if already there,
per the WebDriver model), and `switch_to.default_content()` returns to depth
0.  Each frame in the entry sequence is represented by the success/failure of
its `_switch_to_frame` call (timeout waits and selector kinds only influence
that outcome). -/

/-- Outcome of running a `FramesNavigator.context` scope. -/
inductive CtxOutcome where
  | entryFailed  -- `_switch_to_frame` raised `FrameError` during entry
  | bodyFailed   -- the body raised; re-raised after the `finally`
  | ok
deriving DecidableEq, Repr

/-- The entry loop of `FramesNavigator.context`: switch into each frame in
order, counting `entered`; stop at the first failure, which leaves the
context at the last successfully-entered level. -/
def enterFrames : List Bool → Nat → Nat → Nat × Nat × Bool
  | [], d, n => (d, n, true)
  | ok :: rest, d, n =>
      if ok then enterFrames rest (d + 1) (n + 1) else (d, n, false)

/-- `FramesNavigator.context(frames, exit_to=...)` around a body:
the frames are entered *before* the `try`, so an entry failure propagates
without running the exit; once entry has succeeded, the `finally` always
runs: it does nothing if `entered == 0`, otherwise switches to the parent
frame when `exit_to == "parent"` and to the default content for `"default"`
(and for any other value).  Returns the outcome, the final depth, and the
number of context switches performed by the exit path. -/
def frames_context (frames : List Bool) (exit_to : List Char) (bodyOk : Bool)
    (d0 : Nat) : CtxOutcome × Nat × Nat :=
  let r := enterFrames frames d0 0
  if r.2.2 = false then (.entryFailed, r.1, 0)
  else if r.2.1 = 0 then ((if bodyOk then .ok else .bodyFailed), r.1, 0)
  else if exit_to = "parent".data then
    ((if bodyOk then .ok else .bodyFailed), r.1 - 1, 1)
  else
    ((if bodyOk then .ok else .bodyFailed), 0, 1)

/-- C9. Frame scope symmetry: entering two frames successfully and exiting in
`parent` mode leaves exactly one level of nesting; exiting in `default`
(return-to-document) mode leaves zero; with zero frames the exit performs no
context switch at all; and whenever entry succeeded the exit runs exactly
once on every exit path, body success or body failure alike. -/
theorem frames_context_symmetry :
    (∀ bodyOk : Bool, ∀ d0 : Nat,
        frames_context [true, true] "parent".data bodyOk d0 =
          ((if bodyOk then .ok else .bodyFailed), d0 + 1, 1)) ∧
    (∀ bodyOk : Bool, ∀ d0 : Nat,
        frames_context [true, true] "default".data bodyOk d0 =
          ((if bodyOk then .ok else .bodyFailed), 0, 1)) ∧
    (∀ bodyOk : Bool, ∀ d0 : Nat, ∀ exit_to : List Char,
        frames_context [] exit_to bodyOk d0 =
          ((if bodyOk then .ok else .bodyFailed), d0, 0)) ∧
    (∀ (frames : List Bool) (exit_to : List Char) (d0 : Nat),
        frames.length ≠ 0 → (∀ b ∈ frames, b = true) →
        (frames_context frames exit_to true d0).2.2 = 1 ∧
        (frames_context frames exit_to false d0).2.2 = 1 ∧
        (frames_context frames exit_to true d0).2.1 =
          (frames_context frames exit_to false d0).2.1) := by
  have henter : ∀ (frames : List Bool), (∀ b ∈ frames, b = true) →
      ∀ d n, enterFrames frames d n = (d + frames.length, n + frames.length, true) := by
    intro frames hall
    induction frames with
    | nil => intro d n; simp [enterFrames]
    | cons b rest ih =>
        intro d n
        have hb : b = true := hall b (by simp)
        subst hb
        rw [enterFrames, if_pos rfl, ih (fun x hx => hall x (by simp [hx]))]
        simp only [List.length_cons, Prod.mk.injEq]
        exact ⟨by omega, by omega, trivial⟩
  refine ⟨?_, ?_, ?_, ?_⟩
  · intro bodyOk d0
    cases bodyOk <;> simp [frames_context, enterFrames]
  · intro bodyOk d0
    cases bodyOk <;> simp [frames_context, enterFrames]
  · intro bodyOk d0 exit_to
    cases bodyOk <;> simp [frames_context, enterFrames]
  · intro frames exit_to d0 hlen hall
    have h := henter frames hall d0 0
    have hpos : frames.length ≠ 0 := hlen
    by_cases hexit : exit_to = "parent".data <;>
      simp [frames_context, h, hpos, hexit]

/-- Witness for `frames_context_symmetry`: a three-frame scope whose body
fails still performs its single exit switch. -/
theorem frames_context_symmetry_witness :
    (frames_context [true, true, true] "default".data false 0).2.2 = 1 :=
  (frames_context_symmetry.2.2.2 [true, true, true] "default".data 0
    (by decide) (by decide)).2.1

/-! ## Session pool (`src/core/browser.py`, `WebDriverPool`)

Drivers are identified by naturals.  The model is sequential: no other thread
puts a handle into the queue while one `acquire` call runs, so a
`Queue.get(timeout=timeout)` on a nonempty queue returns its head
immediately and on an empty queue blocks for the full `timeout` and then
raises `queue.Empty`.  `alive d` is the outcome of the health probe
(`driver.current_url`), `newId` the driver the factory would create, and the
`waited` field accumulates the time spent blocked on the queue. -/

structure WebDriverPool where
  idle : List Nat
  created : ℤ
  max_size : ℤ
  closed : Bool
deriving DecidableEq, Repr

inductive AcquireResult where
  | got (driver : Nat)   -- a WebDriver is returned
  | emptyErr             -- `queue.Empty` propagates
  | closedErr            -- `RuntimeError("Pool is closed")`
deriving DecidableEq, Repr

structure AcquireOutcome where
  result : AcquireResult
  pool : WebDriverPool
  waited : ℚ
  createdNew : Bool
deriving DecidableEq, Repr

/-- The tail of `WebDriverPool.acquire` after the first `Queue.get` has been
dealt with (the code below `# Create new driver if under limit`): create when
under the limit, else perform the second `Queue.get(timeout=timeout)`. -/
def acquireCreate (p : WebDriverPool) (timeout waited : ℚ) (newId : Nat) :
    AcquireOutcome :=
  if p.created < p.max_size then
    ⟨.got newId, { p with created := p.created + 1 }, waited, true⟩
  else
    match p.idle with
    | d :: rest => ⟨.got d, { p with idle := rest }, waited, false⟩
    | [] => ⟨.emptyErr, p, waited + timeout, false⟩

/-- `WebDriverPool.acquire(timeout)`: fail when closed; otherwise
`Queue.get(timeout=timeout)` — a nonempty queue yields its head at once,
which is probed: alive, it is returned; dead, it is quit and the created
counter decremented, falling through to the creation step with no further
wait.  An empty queue blocks for the full `timeout`, the `queue.Empty` is
swallowed, and control falls through to the creation step. -/
def WebDriverPool.acquire (p : WebDriverPool) (timeout : ℚ)
    (alive : Nat → Bool) (newId : Nat) : AcquireOutcome :=
  if p.closed then ⟨.closedErr, p, 0, false⟩
  else
    match p.idle with
    | d :: rest =>
        if alive d then ⟨.got d, { p with idle := rest }, 0, false⟩
        else
          acquireCreate { p with idle := rest, created := p.created - 1 }
            timeout 0 newId
    | [] => acquireCreate { p with idle := [] } timeout timeout newId

/-- C7 (counterexample). The claim says that with no idle handle and the
created count below the maximum, a new session is created immediately via the
factory, without first waiting out the timeout.  In the source, `acquire`
always performs `self._pool.get(timeout=timeout)` *first*: on a fresh empty
pool (created 0, max 10) with `timeout=30`, the call does create a new
driver, but only after blocking on the empty queue for the full 30 seconds;
and at the limit (created = max = 1) it blocks twice, failing only after 60
seconds. -/
theorem pool_acquire_waits_before_create_cex :
    (WebDriverPool.acquire ⟨[], 0, 10, false⟩ 30 (fun _ => true) 7).result
        = .got 7 ∧
    (WebDriverPool.acquire ⟨[], 0, 10, false⟩ 30 (fun _ => true) 7).createdNew
        = true ∧
    (WebDriverPool.acquire ⟨[], 0, 10, false⟩ 30 (fun _ => true) 7).waited = 30 ∧
    ¬ (WebDriverPool.acquire ⟨[], 0, 10, false⟩ 30 (fun _ => true) 7).waited = 0 ∧
    (WebDriverPool.acquire ⟨[], 1, 1, false⟩ 30 (fun _ => true) 7).result
        = .emptyErr ∧
    (WebDriverPool.acquire ⟨[], 1, 1, false⟩ 30 (fun _ => true) 7).waited = 60 := by
  refine ⟨rfl, rfl, by norm_num [WebDriverPool.acquire, acquireCreate],
    by norm_num [WebDriverPool.acquire, acquireCreate], rfl,
    by norm_num [WebDriverPool.acquire, acquireCreate]⟩

/-- C7 (amended). On an open pool: an idle handle is taken and probed — a
live probe returns it with no waiting; a failed probe discards it, decrements
the created counter, and falls through to the creation step with no further
wait.  With no idle handle, `acquire` first blocks on the queue for the full
timeout; only then, if the created count is below the maximum, is a new
session created via the factory; if the count has reached the maximum it
blocks for a second full timeout and then fails with `queue.Empty`.  A closed
pool raises `RuntimeError` at once. -/
theorem pool_acquire_spec (p : WebDriverPool) (timeout : ℚ)
    (alive : Nat → Bool) (newId : Nat) :
    (p.closed = true →
        p.acquire timeout alive newId = ⟨.closedErr, p, 0, false⟩) ∧
    (∀ d rest, p.closed = false → p.idle = d :: rest → alive d = true →
        p.acquire timeout alive newId =
          ⟨.got d, { p with idle := rest }, 0, false⟩) ∧
    (∀ d rest, p.closed = false → p.idle = d :: rest → alive d = false →
        p.created - 1 < p.max_size →
        p.acquire timeout alive newId =
          ⟨.got newId, { p with idle := rest, created := p.created - 1 + 1 },
            0, true⟩) ∧
    (p.closed = false → p.idle = [] → p.created < p.max_size →
        p.acquire timeout alive newId =
          ⟨.got newId, { p with idle := [], created := p.created + 1 },
            timeout, true⟩) ∧
    (p.closed = false → p.idle = [] → ¬ p.created < p.max_size →
        p.acquire timeout alive newId =
          ⟨.emptyErr, { p with idle := [] }, timeout + timeout, false⟩) := by
  refine ⟨?_, ?_, ?_, ?_, ?_⟩
  · intro hc
    simp [WebDriverPool.acquire, hc]
  · intro d rest hc hidle halive
    simp [WebDriverPool.acquire, hc, hidle, halive]
  · intro d rest hc hidle halive hlim
    simp [WebDriverPool.acquire, acquireCreate, hc, hidle, halive, hlim]
  · intro hc hidle hlim
    simp [WebDriverPool.acquire, acquireCreate, hc, hidle, hlim]
  · intro hc hidle hlim
    simp [WebDriverPool.acquire, acquireCreate, hc, hidle, hlim]

/-- Witness for `pool_acquire_spec`: a live idle handle is handed out
immediately. -/
theorem pool_acquire_spec_witness :
    WebDriverPool.acquire ⟨[4, 5], 2, 10, false⟩ 30 (fun _ => true) 7 =
      ⟨.got 4, ⟨[5], 2, 10, false⟩, 0, false⟩ :=
  (pool_acquire_spec ⟨[4, 5], 2, 10, false⟩ 30 (fun _ => true) 7).2.1 4 [5]
    rfl rfl rfl

/-! ## Field extraction during step execution

The spec's `FieldSpec` (required flag, default value) is
`config.pydantic_models.FieldConfig`; the step executor implementing the
required/optional policy is `AsyncFieldExtractor._extract_fields_serial` in
`src/core/enhanced_scraper.py` (used by `_execute_step_async` for serial
extraction).  `src/core/scraper.py`'s `SiteScraper._exec_step` uses the
dataclass `config.models.FieldConfig`, which has no `required`/`default`
attributes at all — every field there is required — and its loop is embedded
below as `exec_step_fields` for contrast.  The remote extraction itself
(`_extract_single_field` / `_extract_field`: wait for visibility, then read
the attribute or the element text) is a parameter `extract` giving each
field's outcome. -/

/-- `config.pydantic_models.FieldConfig` (the validation-relevant slots). -/
structure FieldConfig where
  name : List Char
  xpath : List Char
  attr : Option (List Char) := none  -- `attribute` is a Lean keyword
  required : Bool := true
  default_value : Option (List Char) := none
deriving DecidableEq, Repr

/-- Python's `field.default_value or ""`: `None` and `""` are falsy. -/
def pyOrEmpty (o : Option (List Char)) : List Char :=
  match o with
  | some v => if v = [] then [] else v
  | none => []

/-- `AsyncFieldExtractor._extract_fields_serial`: extract fields in
declaration order; a failure on a required field re-raises (abandoning the
remaining fields and the accumulated results); a failure on an optional field
substitutes `default_value or ""` and continues. -/
def extract_fields_serial (extract : FieldConfig → Except Unit (List Char)) :
    List FieldConfig → Except FieldConfig (List (List Char × List Char))
  | [] => .ok []
  | f :: rest =>
    match extract f with
    | .ok v =>
        (extract_fields_serial extract rest).map (fun tail => (f.name, v) :: tail)
    | .error _ =>
        if f.required then .error f
        else
          (extract_fields_serial extract rest).map
            (fun tail => (f.name, pyOrEmpty f.default_value) :: tail)

/-- `config.models.FieldConfig` (dataclass; no required/default slots). -/
structure FieldConfigDC where
  name : List Char
  xpath : List Char
  attr : Option (List Char) := none  -- `attribute` is a Lean keyword
deriving DecidableEq, Repr

/-- The field loop of `SiteScraper._exec_step` (`src/core/scraper.py`): any
extraction failure raises `ExtractionError` for that field; there is no
required/optional branch. -/
def exec_step_fields (extract : FieldConfigDC → Except Unit (List Char)) :
    List FieldConfigDC → Except FieldConfigDC (List (List Char × List Char))
  | [] => .ok []
  | f :: rest =>
    match extract f with
    | .ok v =>
        (exec_step_fields extract rest).map (fun tail => (f.name, v) :: tail)
    | .error _ => .error f

/-- In the dataclass path every field failure fails the step (there are no
optional fields to absorb). -/
theorem exec_step_fields_any_failure_fatal
    (extract : FieldConfigDC → Except Unit (List Char)) (f : FieldConfigDC)
    (rest : List FieldConfigDC) (h : extract f = .error ()) :
    exec_step_fields extract (f :: rest) = .error f := by
  simp [exec_step_fields, h]

/-- C3. Optional-field default substitution in serial step extraction:
a failing required field fails the whole step at once (remaining fields are
not attempted); a failing optional field has its configured default (empty
string when none is configured) substituted, and execution continues with
the remaining fields; when every failing field is optional the extraction
succeeds — optional-field failures are never surfaced to the caller. -/
theorem extract_fields_serial_spec
    (extract : FieldConfig → Except Unit (List Char)) :
    (∀ (f : FieldConfig) (rest : List FieldConfig),
        extract f = .error () → f.required = true →
        extract_fields_serial extract (f :: rest) = .error f) ∧
    (∀ (f : FieldConfig) (rest : List FieldConfig),
        extract f = .error () → f.required = false →
        extract_fields_serial extract (f :: rest) =
          (extract_fields_serial extract rest).map
            (fun tail => (f.name, pyOrEmpty f.default_value) :: tail)) ∧
    (∀ fields : List FieldConfig,
        (∀ f ∈ fields, extract f = .error () → f.required = false) →
        extract_fields_serial extract fields =
          .ok (fields.map (fun f =>
            (f.name, match extract f with
              | .ok v => v
              | .error _ => pyOrEmpty f.default_value)))) := by
  refine ⟨?_, ?_, ?_⟩
  · intro f rest hf hreq
    simp [extract_fields_serial, hf, hreq]
  · intro f rest hf hreq
    simp [extract_fields_serial, hf, hreq]
  · intro fields hall
    induction fields with
    | nil => simp [extract_fields_serial]
    | cons f rest ih =>
        have hrest := ih (fun g hg he => hall g (by simp [hg]) he)
        cases hf : extract f with
        | ok v => simp [extract_fields_serial, hf, hrest, Except.map]
        | error e =>
            have hreq : f.required = false := hall f (by simp) (by cases e; exact hf)
            simp [extract_fields_serial, hf, hreq, hrest, Except.map]

/-- Witness for `extract_fields_serial_spec`: one optional failing field
between two successes is absorbed with its default. -/
theorem extract_fields_serial_spec_witness :
    extract_fields_serial
      (fun f => if f.name = "b".data then .error () else .ok "v".data)
      [⟨"a".data, "//a".data, none, true, none⟩,
        ⟨"b".data, "//b".data, none, false, some "dflt".data⟩,
        ⟨"c".data, "//c".data, none, true, none⟩] =
      .ok [("a".data, "v".data), ("b".data, "dflt".data),
        ("c".data, "v".data)] := by
  have h := (extract_fields_serial_spec
    (fun f => if f.name = "b".data then .error () else .ok "v".data)).2.2
    [⟨"a".data, "//a".data, none, true, none⟩,
      ⟨"b".data, "//b".data, none, false, some "dflt".data⟩,
      ⟨"c".data, "//c".data, none, true, none⟩]
    (by intro f hf he; fin_cases hf <;> simp_all)
  rw [h]
  rfl

/-! ## Per-site runner (`src/runner.py`)

`process_site` is modelled over an abstract result type `α` for the scraped
data; `run` is the outcome of the body of its `try` block (browser-manager
construction, session, optional login, `SiteScraper.run()`).  The scheduler
loop in `main` collects each future with `future.result()` and converts a
raised exception into `format_error_result(site_name, e)`. -/

/-- The structured value `process_site` can `return`. -/
inductive SiteOutcome (α : Type) where
  | circuitOpen (state : CircuitState)  -- the "CircuitBreakerOpen" error dict
  | success (d : α)                     -- `{"site": ..., "data": data}`
deriving DecidableEq, Repr

/-- `process_site`: consult the circuit breaker (a lazy-reset read at `now`);
denied, return the breaker-open outcome; otherwise run the body — success
records a breaker success and returns the data outcome, while any exception
records a breaker failure (stamped `tRun`) and is *re-raised*. -/
def process_site {α : Type} (cb : CircuitBreaker) (now tRun : ℚ)
    (run : Except ExcKind α) : Except ExcKind (SiteOutcome α) × CircuitBreaker :=
  let pr := cb.is_call_permitted now
  if pr.1 = false then (.ok (.circuitOpen pr.2.state), pr.2)
  else
    match run with
    | .ok d => (.ok (.success d), pr.2.record_success)
    | .error e => (.error e, pr.2.record_failure tRun)

/-- What the scheduler records for one site: the returned outcome, or the
structured error dict built by `format_error_result` from a raised
exception. -/
inductive CollectedResult (α : Type) where
  | completed (o : SiteOutcome α)
  | errorResult (e : ExcKind)
deriving DecidableEq, Repr

/-- The per-future collection step of `main`'s scheduler loop:
`future.result()` re-raises whatever `process_site` raised, and both
`except` arms convert it with `format_error_result`; a returned outcome is
kept as-is.  This function is total: the scheduler never re-raises. -/
def scheduler_collect {α : Type} (r : Except ExcKind (SiteOutcome α)) :
    CollectedResult α :=
  match r with
  | .ok o => .completed o
  | .error e => .errorResult e

/-- C8 (counterexample). The claim says the per-site runner returns a
structured outcome and never propagates an exception out of the per-site
run.  In the source, `process_site`'s `except Exception` block ends in
`raise`: with a fresh permitting breaker, a body that raises `ValueError`
makes `process_site` itself raise `ValueError` (after recording the breaker
failure) — the conversion to a structured error happens only in the
scheduler's collection loop. -/
theorem process_site_raises_cex :
    (process_site (α := Unit) (CircuitBreaker.init ⟨5, 60, 2⟩) 0 1
        (.error .ValueError)).1 = .error .ValueError ∧
    (¬ ∃ o : SiteOutcome Unit,
      (process_site (CircuitBreaker.init ⟨5, 60, 2⟩) 0 1
        (.error .ValueError)).1 = .ok o) ∧
    (process_site (α := Unit) (CircuitBreaker.init ⟨5, 60, 2⟩) 0 1
        (.error .ValueError)).2.failures = 1 := by
  refine ⟨rfl, ?_, rfl⟩
  rintro ⟨o, ho⟩
  simp [process_site, CircuitBreaker.init, CircuitBreaker.is_call_permitted,
    CircuitBreaker.maybe_attempt_reset] at ho

/-- C8 (amended). `process_site` short-circuits with a structured
breaker-open outcome when the circuit denies the call; on body success it
records a breaker success and returns the data outcome; on any internal
exception it records a breaker failure and re-raises that exception
unchanged — and it is the scheduler's collection loop that converts the
raised exception into a structured error result, so at the scheduler
boundary every site still yields exactly one structured outcome, never an
exception. -/
theorem process_site_spec {α : Type} (cb : CircuitBreaker) (now tRun : ℚ)
    (run : Except ExcKind α) :
    ((cb.is_call_permitted now).1 = false →
        process_site cb now tRun run =
          (.ok (.circuitOpen (cb.is_call_permitted now).2.state),
            (cb.is_call_permitted now).2)) ∧
    ((cb.is_call_permitted now).1 = true → ∀ d, run = .ok d →
        process_site cb now tRun run =
          (.ok (.success d), (cb.is_call_permitted now).2.record_success)) ∧
    ((cb.is_call_permitted now).1 = true → ∀ e, run = .error e →
        process_site cb now tRun run =
          (.error e, (cb.is_call_permitted now).2.record_failure tRun) ∧
        scheduler_collect (process_site cb now tRun run).1 = .errorResult e) ∧
    (∀ r : Except ExcKind (SiteOutcome α),
        scheduler_collect r =
          match r with
          | .ok o => .completed o
          | .error e => .errorResult e) := by
  refine ⟨?_, ?_, ?_, fun r => rfl⟩
  · intro hdeny
    simp [process_site, hdeny]
  · intro hperm d hrun
    simp [process_site, hperm, hrun]
  · intro hperm e hrun
    constructor <;> simp [process_site, scheduler_collect, hperm, hrun]

/-- Witness for `process_site_spec`: a denied call yields the breaker-open
outcome (breaker fresh-opened by one failure with threshold 1, read before
the recovery timeout). -/
theorem process_site_spec_witness :
    process_site (α := Unit) ((CircuitBreaker.init ⟨1, 60, 1⟩).record_failure 0)
        10 10 (.ok ()) =
      (.ok (.circuitOpen .OPEN),
        (((CircuitBreaker.init ⟨1, 60, 1⟩).record_failure 0).is_call_permitted
          10).2) := by
  have hdeny : (((CircuitBreaker.init ⟨1, 60, 1⟩).record_failure 0).is_call_permitted
      10).1 = false := by
    norm_num [CircuitBreaker.init, CircuitBreaker.record_failure,
      CircuitBreaker.is_call_permitted, CircuitBreaker.maybe_attempt_reset]
  have h := (process_site_spec (α := Unit)
    ((CircuitBreaker.init ⟨1, 60, 1⟩).record_failure 0) 10 10 (.ok ())).1 hdeny
  rw [h]
  norm_num [CircuitBreaker.init, CircuitBreaker.record_failure,
    CircuitBreaker.is_call_permitted, CircuitBreaker.maybe_attempt_reset]

/-! ## `normalize_url` (`src/core/url.py`) and the parts of Python's
`urllib.parse` it calls (CPython 3.11: `urlsplit`, `urlunsplit`,
`parse_qsl(keep_blank_values=True)`, `urlencode(doseq=True)` over
`quote_plus`/`unquote`).  Strings are `List Char`; `str.encode('utf-8')` and
`bytes.decode('utf-8', errors='replace')` are embedded as explicit UTF-8
codecs over byte lists (`List Nat`). -/

/-- UTF-8 encoding of one Unicode scalar value. -/
def utf8EncodeChar (c : Char) : List Nat :=
  let n := c.toNat
  if n < 0x80 then [n]
  else if n < 0x800 then [0xC0 + n / 0x40, 0x80 + n % 0x40]
  else if n < 0x10000 then
    [0xE0 + n / 0x1000, 0x80 + (n / 0x40) % 0x40, 0x80 + n % 0x40]
  else
    [0xF0 + n / 0x40000, 0x80 + (n / 0x1000) % 0x40, 0x80 + (n / 0x40) % 0x40,
      0x80 + n % 0x40]

/-- `str.encode('utf-8')`. -/
def utf8Encode (s : List Char) : List Nat := s.bind utf8EncodeChar

/-- U+FFFD, produced by `errors='replace'`. -/
def replacementChar : Char := Char.ofNat 0xFFFD

/-- A UTF-8 continuation byte. -/
def isCont (b : Nat) : Bool := 0x80 ≤ b ∧ b ≤ 0xBF

/-- The second-byte range of a multi-byte sequence headed by `b` (tighter for
`E0`/`ED`/`F0`/`F4`, excluding overlong encodings and surrogates). -/
def isCont2 (b b2 : Nat) : Bool :=
  if b = 0xE0 then 0xA0 ≤ b2 ∧ b2 ≤ 0xBF
  else if b = 0xED then 0x80 ≤ b2 ∧ b2 ≤ 0x9F
  else if b = 0xF0 then 0x90 ≤ b2 ∧ b2 ≤ 0xBF
  else if b = 0xF4 then 0x80 ≤ b2 ∧ b2 ≤ 0x8F
  else isCont b2

/-- One step of `bytes.decode('utf-8', errors='replace')` on first byte `b`
with remaining bytes `bs`: the decoded scalar (or U+FFFD for a maximal
invalid subpart) and the bytes not yet consumed. -/
def utf8DecodeStep (b : Nat) (bs : List Nat) : Char × List Nat :=
  if b < 0x80 then (Char.ofNat b, bs)
  else if 0xC2 ≤ b ∧ b ≤ 0xDF then
    match bs with
    | [] => (replacementChar, [])
    | b2 :: rest =>
      if isCont b2 then (Char.ofNat ((b - 0xC0) * 0x40 + (b2 - 0x80)), rest)
      else (replacementChar, b2 :: rest)
  else if 0xE0 ≤ b ∧ b ≤ 0xEF then
    match bs with
    | [] => (replacementChar, [])
    | b2 :: rest =>
      if isCont2 b b2 then
        match rest with
        | [] => (replacementChar, [])
        | b3 :: rest2 =>
          if isCont b3 then
            (Char.ofNat ((b - 0xE0) * 0x1000 + (b2 - 0x80) * 0x40 + (b3 - 0x80)),
              rest2)
          else (replacementChar, b3 :: rest2)
      else (replacementChar, b2 :: rest)
  else if 0xF0 ≤ b ∧ b ≤ 0xF4 then
    match bs with
    | [] => (replacementChar, [])
    | b2 :: rest =>
      if isCont2 b b2 then
        match rest with
        | [] => (replacementChar, [])
        | b3 :: rest2 =>
          if isCont b3 then
            match rest2 with
            | [] => (replacementChar, [])
            | b4 :: rest3 =>
              if isCont b4 then
                (Char.ofNat ((b - 0xF0) * 0x40000 + (b2 - 0x80) * 0x1000 +
                    (b3 - 0x80) * 0x40 + (b4 - 0x80)), rest3)
              else (replacementChar, b4 :: rest3)
          else (replacementChar, b3 :: rest2)
      else (replacementChar, b2 :: rest)
  else (replacementChar, bs)

theorem utf8DecodeStep_length (b : Nat) (bs : List Nat) :
    (utf8DecodeStep b bs).2.length ≤ bs.length := by
  rcases bs with _ | ⟨b2, _ | ⟨b3, _ | ⟨b4, rest3⟩⟩⟩ <;>
    · simp only [utf8DecodeStep]
      split_ifs <;> simp <;> omega

/-- `bytes.decode('utf-8', errors='replace')`: strict UTF-8 with each maximal
invalid subpart replaced by one U+FFFD. -/
def utf8Decode : List Nat → List Char
  | [] => []
  | b :: bs =>
    (utf8DecodeStep b bs).1 :: utf8Decode (utf8DecodeStep b bs).2
termination_by l => l.length
decreasing_by
  simp only [List.length_cons]
  exact Nat.lt_succ_of_le (utf8DecodeStep_length _ _)

theorem utf8DecodeStep_encodeChar (c : Char) (rest : List Nat) :
    ∃ b tail, utf8EncodeChar c = b :: tail ∧
      utf8DecodeStep b (tail ++ rest) = (c, rest) := by
  have hvalid : c.toNat < 0xD800 ∨ (0xE000 ≤ c.toNat ∧ c.toNat < 0x110000) := by
    have h := c.valid
    show c.val.toNat < 0xD800 ∨ (0xE000 ≤ c.val.toNat ∧ c.val.toNat < 0x110000)
    rcases h with h | h
    · exact Or.inl h
    · exact Or.inr ⟨by omega, h.2⟩
  set n := c.toNat with hn
  have hofn : Char.ofNat n = c := Char.ofNat_toNat c
  by_cases h1 : n < 0x80
  · refine ⟨n, [], ?_, ?_⟩
    · rw [utf8EncodeChar]; simp only [← hn]; rw [if_pos h1]
    · simp only [List.nil_append, utf8DecodeStep, if_pos h1, hofn]
  · by_cases h2 : n < 0x800
    · refine ⟨0xC0 + n / 0x40, [0x80 + n % 0x40], ?_, ?_⟩
      · rw [utf8EncodeChar]; simp only [← hn]; rw [if_neg h1, if_pos h2]
      · have hb1 : ¬ (0xC0 + n / 0x40 < 0x80) := by omega
        have hb2 : 0xC2 ≤ 0xC0 + n / 0x40 := by omega
        have hb3 : 0xC0 + n / 0x40 ≤ 0xDF := by omega
        have hcont : isCont (0x80 + n % 0x40) = true := by
          simp only [isCont]
          exact decide_eq_true ⟨by omega, by omega⟩
        have harith : (0xC0 + n / 0x40 - 0xC0) * 0x40 + (0x80 + n % 0x40 - 0x80)
            = n := by omega
        simp only [List.cons_append, List.nil_append, utf8DecodeStep, hb1, hb2,
          hb3, hcont, and_self, if_true, if_false, ite_true, ite_false,
          harith, hofn]
    · by_cases h3 : n < 0x10000
      · refine ⟨0xE0 + n / 0x1000,
          [0x80 + (n / 0x40) % 0x40, 0x80 + n % 0x40], ?_, ?_⟩
        · rw [utf8EncodeChar]; simp only [← hn]
          rw [if_neg h1, if_neg h2, if_pos h3]
        · have hm2 : (n / 0x40) % 0x40 < 0x40 := Nat.mod_lt _ (by omega)
          have hm3 : n % 0x40 < 0x40 := Nat.mod_lt _ (by omega)
          have hb1 : ¬ (0xE0 + n / 0x1000 < 0x80) := by omega
          have hb2 : ¬ (0xC2 ≤ 0xE0 + n / 0x1000 ∧ 0xE0 + n / 0x1000 ≤ 0xDF) := by
            rintro ⟨-, h⟩; omega
          have hb3 : 0xE0 ≤ 0xE0 + n / 0x1000 := by omega
          have hb4 : 0xE0 + n / 0x1000 ≤ 0xEF := by omega
          have hcont2 : isCont2 (0xE0 + n / 0x1000) (0x80 + (n / 0x40) % 0x40)
              = true := by
            rw [isCont2]
            by_cases hE0 : n / 0x1000 = 0
            · rw [if_pos (by omega)]
              have hge : 0x20 ≤ (n / 0x40) % 0x40 := by omega
              exact decide_eq_true ⟨by omega, by omega⟩
            · rw [if_neg (by omega)]
              by_cases hED : n / 0x1000 = 0xD
              · rw [if_pos (by omega)]
                have hlt : n < 0xD800 := by
                  rcases hvalid with h | h
                  · exact h
                  · omega
                have hle : (n / 0x40) % 0x40 ≤ 0x1F := by omega
                exact decide_eq_true ⟨by omega, by omega⟩
              · rw [if_neg (by omega), if_neg (by omega), if_neg (by omega)]
                simp only [isCont]
                exact decide_eq_true ⟨by omega, by omega⟩
          have hcont : isCont (0x80 + n % 0x40) = true := by
            simp only [isCont]
            exact decide_eq_true ⟨by omega, by omega⟩
          have harith : (0xE0 + n / 0x1000 - 0xE0) * 0x1000 +
              (0x80 + (n / 0x40) % 0x40 - 0x80) * 0x40 +
              (0x80 + n % 0x40 - 0x80) = n := by omega
          simp only [List.cons_append, List.nil_append, utf8DecodeStep, hb1,
            hb2, hb3, hb4, hcont2, hcont, and_self, if_true, if_false,
            ite_true, ite_false, harith, hofn]
      · have h4 : n < 0x110000 := by
          rcases hvalid with h | h
          · omega
          · exact h.2
        refine ⟨0xF0 + n / 0x40000,
          [0x80 + (n / 0x1000) % 0x40, 0x80 + (n / 0x40) % 0x40,
            0x80 + n % 0x40], ?_, ?_⟩
        · rw [utf8EncodeChar]; simp only [← hn]
          rw [if_neg h1, if_neg h2, if_neg (by omega)]
        · have hm2 : (n / 0x1000) % 0x40 < 0x40 := Nat.mod_lt _ (by omega)
          have hm3 : (n / 0x40) % 0x40 < 0x40 := Nat.mod_lt _ (by omega)
          have hm4 : n % 0x40 < 0x40 := Nat.mod_lt _ (by omega)
          have hb1 : ¬ (0xF0 + n / 0x40000 < 0x80) := by omega
          have hb2 : ¬ (0xC2 ≤ 0xF0 + n / 0x40000 ∧ 0xF0 + n / 0x40000 ≤ 0xDF) := by
            rintro ⟨-, h⟩; omega
          have hb3 : ¬ (0xE0 ≤ 0xF0 + n / 0x40000 ∧ 0xF0 + n / 0x40000 ≤ 0xEF) := by
            rintro ⟨-, h⟩; omega
          have hb4 : 0xF0 ≤ 0xF0 + n / 0x40000 := by omega
          have hb5 : 0xF0 + n / 0x40000 ≤ 0xF4 := by omega
          have hcont2 : isCont2 (0xF0 + n / 0x40000) (0x80 + (n / 0x1000) % 0x40)
              = true := by
            rw [isCont2]
            rw [if_neg (by omega), if_neg (by omega)]
            by_cases hF0 : n / 0x40000 = 0
            · rw [if_pos (by omega)]
              have hge : 0x10 ≤ (n / 0x1000) % 0x40 := by omega
              exact decide_eq_true ⟨by omega, by omega⟩
            · rw [if_neg (by omega)]
              by_cases hF4 : n / 0x40000 = 4
              · rw [if_pos (by omega)]
                have hle : (n / 0x1000) % 0x40 ≤ 0xF := by omega
                exact decide_eq_true ⟨by omega, by omega⟩
              · rw [if_neg (by omega)]
                simp only [isCont]
                exact decide_eq_true ⟨by omega, by omega⟩
          have hcont3 : isCont (0x80 + (n / 0x40) % 0x40) = true := by
            simp only [isCont]
            exact decide_eq_true ⟨by omega, by omega⟩
          have hcont4 : isCont (0x80 + n % 0x40) = true := by
            simp only [isCont]
            exact decide_eq_true ⟨by omega, by omega⟩
          have harith : (0xF0 + n / 0x40000 - 0xF0) * 0x40000 +
              (0x80 + (n / 0x1000) % 0x40 - 0x80) * 0x1000 +
              (0x80 + (n / 0x40) % 0x40 - 0x80) * 0x40 +
              (0x80 + n % 0x40 - 0x80) = n := by omega
          simp only [List.cons_append, List.nil_append, utf8DecodeStep, hb1,
            hb2, hb3, hb4, hb5, hcont2, hcont3, hcont4, and_self, if_true,
            if_false, ite_true, ite_false, harith, hofn]

theorem utf8Decode_encodeChar (c : Char) (rest : List Nat) :
    utf8Decode (utf8EncodeChar c ++ rest) = c :: utf8Decode rest := by
  obtain ⟨b, tail, he, hstep⟩ := utf8DecodeStep_encodeChar c rest
  rw [he, List.cons_append, utf8Decode, hstep]

theorem utf8Encode_cons (c : Char) (cs : List Char) :
    utf8Encode (c :: cs) = utf8EncodeChar c ++ utf8Encode cs := rfl

/-- UTF-8 decoding is a left inverse of encoding. -/
theorem utf8Decode_encode (s : List Char) : utf8Decode (utf8Encode s) = s := by
  induction s with
  | nil => simp [utf8Encode, utf8Decode]
  | cons c cs ih =>
      rw [utf8Encode_cons, utf8Decode_encodeChar, ih]

/-- Uppercase hex digit of `n < 16` (CPython's `_byte_quoter_factory` formats
with uppercase hex). -/
def hexUpper (n : Nat) : Char :=
  if n < 10 then Char.ofNat (48 + n) else Char.ofNat (55 + n)

/-- The value of one hex-digit byte, both cases (`_hextobyte` accepts
`0-9A-Fa-f`). -/
def hexByteVal (b : Nat) : Option Nat :=
  if 48 ≤ b ∧ b ≤ 57 then some (b - 48)
  else if 65 ≤ b ∧ b ≤ 70 then some (b - 55)
  else if 97 ≤ b ∧ b ≤ 102 then some (b - 87)
  else none

/-- urllib's `_ALWAYS_SAFE` with `safe=''`: ASCII letters, digits, and
`_.-~`. -/
def alwaysSafeByte (b : Nat) : Bool :=
  (48 ≤ b ∧ b ≤ 57) ∨ (65 ≤ b ∧ b ≤ 90) ∨ (97 ≤ b ∧ b ≤ 122) ∨
    b = 45 ∨ b = 46 ∨ b = 95 ∨ b = 126

/-- One byte of `quote_plus(s, safe='')` output: a 0x20 byte becomes `+`, a
safe byte stands for itself, anything else is `%XX`.  (CPython's
`quote_plus` quotes with `safe=' '` and then replaces spaces by `+` when the
string contains a space, and with `safe=''` otherwise; per byte both paths
give exactly this.) -/
def quotePlusByte (b : Nat) : List Char :=
  if b = 32 then ['+']
  else if alwaysSafeByte b then [Char.ofNat b]
  else ['%', hexUpper (b / 16), hexUpper (b % 16)]

/-- `urllib.parse.quote_plus(s, safe='')`: UTF-8 encode, then quote each
byte. -/
def quote_plus (s : List Char) : List Char :=
  (utf8Encode s).bind quotePlusByte

/-- `_unquote_impl`'s percent decoding over bytes: after each `%` (byte 37),
a valid hex pair becomes one byte, anything else leaves the `%` literal.
(CPython splits the byte string on `%` and processes each chunk's first two
bytes; this left-to-right recursion performs the same replacements, since
chunk text between `%`s contains no `%`.) -/
def percentDecodeBytes : List Nat → List Nat
  | [] => []
  | b :: rest =>
    if b = 37 then
      match rest with
      | a :: b2 :: rest2 =>
        match hexByteVal a, hexByteVal b2 with
        | some x, some y => (16 * x + y) :: percentDecodeBytes rest2
        | _, _ => 37 :: percentDecodeBytes (a :: b2 :: rest2)
      | other => 37 :: percentDecodeBytes other
    else b :: percentDecodeBytes rest
termination_by l => l.length
decreasing_by all_goals (simp_all [List.length_cons]; try omega)

/-- An ASCII code point. -/
def isAsciiCh (c : Char) : Bool := c.toNat ≤ 0x7F

/-- Decode one maximal ASCII run of `unquote`'s input: the run's code points
are bytes (`_asciire` guarantees ≤ 0x7F), percent-decoded and then decoded as
UTF-8 with `errors='replace'`. -/
def unquoteAsciiRun (run : List Char) : List Char :=
  utf8Decode (percentDecodeBytes (run.map Char.toNat))

/-- `unquote`'s run loop: `_asciire.split` alternates non-ASCII stretches
(passed through untouched) with ASCII runs (percent-decoded). -/
def unquoteGo : List Char → List Char
  | [] => []
  | c :: cs =>
    if isAsciiCh c then
      unquoteAsciiRun ((c :: cs).takeWhile isAsciiCh)
        ++ unquoteGo ((c :: cs).dropWhile isAsciiCh)
    else c :: unquoteGo cs
termination_by l => l.length
decreasing_by
  all_goals simp_all [List.dropWhile_cons]
  exact Nat.lt_succ_of_le (List.Sublist.length_le (List.dropWhile_sublist _))

/-- `urllib.parse.unquote(s, encoding='utf-8', errors='replace')`: a string
without `%` is returned unchanged; otherwise ASCII runs are percent-decoded
and non-ASCII characters pass through. -/
def unquote (s : List Char) : List Char :=
  if '%' ∈ s then unquoteGo s else s

/-- `urllib.parse.unquote_plus`: replace `+` by space, then `unquote`. -/
def unquote_plus (s : List Char) : List Char :=
  unquote (s.map (fun c => if c = '+' then ' ' else c))

theorem Char_toNat_ofNat (m : Nat) (h : m < 0xD800) : (Char.ofNat m).toNat = m := by
  rw [Char.ofNat, dif_pos (Or.inl h : Nat.isValidChar m)]
  rfl

theorem percentDecodeBytes_cons_ne37 (b : Nat) (rest : List Nat) (h : b ≠ 37) :
    percentDecodeBytes (b :: rest) = b :: percentDecodeBytes rest := by
  rw [percentDecodeBytes.eq_def]
  simp [h]

theorem percentDecodeBytes_hex (a b2 : Nat) (rest2 : List Nat) (x y : Nat)
    (ha : hexByteVal a = some x) (hb : hexByteVal b2 = some y) :
    percentDecodeBytes (37 :: a :: b2 :: rest2) =
      (16 * x + y) :: percentDecodeBytes rest2 := by
  rw [percentDecodeBytes.eq_def]
  simp [ha, hb]

theorem hexUpper_toNat (n : Nat) (h : n < 16) :
    (hexUpper n).toNat = if n < 10 then 48 + n else 55 + n := by
  rw [hexUpper]
  by_cases h10 : n < 10
  · rw [if_pos h10, if_pos h10, Char_toNat_ofNat _ (by omega)]
  · rw [if_neg h10, if_neg h10, Char_toNat_ofNat _ (by omega)]

theorem hexByteVal_hexUpper (n : Nat) (h : n < 16) :
    hexByteVal ((hexUpper n).toNat) = some n := by
  rw [hexUpper_toNat n h, hexByteVal]
  by_cases h10 : n < 10
  · rw [if_pos h10, if_pos (by constructor <;> omega)]
    congr 1
    omega
  · rw [if_neg h10, if_neg (by rintro ⟨-, hx⟩; omega),
      if_pos (by constructor <;> omega)]
    congr 1
    omega

theorem hexUpper_ne_plus (n : Nat) (h : n < 16) : hexUpper n ≠ '+' := by
  intro hEq
  have := congrArg Char.toNat hEq
  rw [hexUpper_toNat n h] at this
  by_cases h10 : n < 10 <;> simp [h10] at this <;> omega

theorem ofNat_ne_plus (b : Nat) (hb : b < 256) (h43 : b ≠ 43) :
    Char.ofNat b ≠ '+' := by
  intro hEq
  have := congrArg Char.toNat hEq
  rw [Char_toNat_ofNat b (by omega)] at this
  exact h43 (by simpa using this)

theorem alwaysSafeByte_facts (b : Nat) (h : alwaysSafeByte b = true) :
    b ≠ 37 ∧ b ≠ 43 ∧ b ≠ 32 ∧ b ≤ 126 := by
  simp only [alwaysSafeByte, decide_eq_true_eq] at h
  rcases h with h | h | h | h | h | h | h <;> exact ⟨by omega, by omega, by omega, by omega⟩

/-- Replacing `+` by space and reading off code points turns the quoted form
of one byte back into bytes that percent-decode to that byte. -/
theorem percentDecode_quotePlus_bytes (bs : List Nat) (h : ∀ b ∈ bs, b < 256) :
    percentDecodeBytes
      (((bs.bind quotePlusByte).map (fun c => if c = '+' then ' ' else c)).map
        Char.toNat) = bs := by
  induction bs with
  | nil => simp [percentDecodeBytes]
  | cons b rest ih =>
      have hb : b < 256 := h b (by simp)
      have hrec := ih (fun x hx => h x (by simp [hx]))
      have hbind : (b :: rest).bind quotePlusByte
          = quotePlusByte b ++ rest.bind quotePlusByte := rfl
      rw [hbind, List.map_append, List.map_append]
      by_cases h32 : b = 32
      · subst h32
        have h1 : List.map Char.toNat (List.map (fun c => if c = '+' then ' ' else c)
            (quotePlusByte 32)) = [32] := by decide
        rw [h1, List.singleton_append,
          percentDecodeBytes_cons_ne37 _ _ (by decide), hrec]
      · by_cases hsafe : alwaysSafeByte b = true
        · obtain ⟨h37, h43, _, h126⟩ := alwaysSafeByte_facts b hsafe
          rw [show quotePlusByte b = [Char.ofNat b] by
            rw [quotePlusByte, if_neg h32, if_pos hsafe]]
          simp only [List.map_cons, List.map_nil,
            if_neg (ofNat_ne_plus b hb h43), List.cons_append, List.nil_append]
          rw [Char_toNat_ofNat b (by omega),
            percentDecodeBytes_cons_ne37 _ _ h37, hrec]
        · rw [show quotePlusByte b = ['%', hexUpper (b / 16), hexUpper (b % 16)] by
            rw [quotePlusByte, if_neg h32, if_neg hsafe]]
          have hhi : b / 16 < 16 := by omega
          have hlo : b % 16 < 16 := Nat.mod_lt _ (by omega)
          simp only [List.map_cons, List.map_nil, List.cons_append,
            List.nil_append, if_neg (show ¬ ('%' = '+') by decide),
            if_neg (hexUpper_ne_plus _ hhi), if_neg (hexUpper_ne_plus _ hlo)]
          rw [show ('%').toNat = 37 from rfl]
          rw [percentDecodeBytes_hex _ _ _ (b / 16) (b % 16)
            (hexByteVal_hexUpper _ hhi) (hexByteVal_hexUpper _ hlo)]
          rw [hrec]
          congr 1
          omega

theorem utf8EncodeChar_lt_256 (c : Char) : ∀ b ∈ utf8EncodeChar c, b < 256 := by
  intro b hb
  rw [utf8EncodeChar] at hb
  have hv : c.toNat < 0x110000 := by
    have h := c.valid
    show c.val.toNat < 0x110000
    rcases h with h | h
    · omega
    · exact h.2
  split_ifs at hb <;> simp at hb <;> omega

theorem utf8Encode_lt_256 (s : List Char) : ∀ b ∈ utf8Encode s, b < 256 := by
  intro b hb
  rw [utf8Encode, List.mem_bind] at hb
  obtain ⟨c, _, hc⟩ := hb
  exact utf8EncodeChar_lt_256 c b hc

theorem quotePlusByte_ascii (b : Nat) (hb : b < 256) :
    ∀ c ∈ quotePlusByte b, isAsciiCh c = true := by
  intro c hc
  rw [quotePlusByte] at hc
  split_ifs at hc with h1 h2
  · simp at hc; subst hc; decide
  · simp at hc
    subst hc
    have h126 := (alwaysSafeByte_facts b h2).2.2.2
    simp only [isAsciiCh]
    rw [Char_toNat_ofNat b (by omega)]
    exact decide_eq_true (by omega)
  · simp at hc
    have hx : ∀ n, n < 16 → isAsciiCh (hexUpper n) = true := by
      intro n hn
      simp only [isAsciiCh]
      rw [hexUpper_toNat n hn]
      split_ifs <;> exact decide_eq_true (by omega)
    rcases hc with hc | hc | hc
    · subst hc; decide
    · subst hc; exact hx _ (by omega)
    · subst hc; exact hx _ (Nat.mod_lt _ (by omega))

theorem percentDecode_no37 (bs : List Nat) (h : 37 ∉ bs) :
    percentDecodeBytes bs = bs := by
  induction bs with
  | nil => simp [percentDecodeBytes]
  | cons b rest ih =>
      rw [percentDecodeBytes_cons_ne37 b rest (by intro hb; exact h (hb ▸ List.mem_cons_self b rest)),
        ih (fun hr => h (List.mem_cons_of_mem b hr))]

theorem utf8Decode_ascii (bs : List Nat) (h : ∀ b ∈ bs, b < 0x80) :
    utf8Decode bs = bs.map Char.ofNat := by
  induction bs with
  | nil => simp [utf8Decode]
  | cons b rest ih =>
      have hb : b < 0x80 := h b (by simp)
      have hstep : utf8DecodeStep b rest = (Char.ofNat b, rest) := by
        rw [utf8DecodeStep.eq_def, if_pos hb]
      rw [utf8Decode, hstep]
      simp only [List.map_cons]
      rw [ih (fun x hx => h x (by simp [hx]))]

theorem unquoteGo_ascii (s : List Char) (h : ∀ c ∈ s, isAsciiCh c = true) :
    unquoteGo s = unquoteAsciiRun s := by
  cases s with
  | nil =>
      rw [unquoteGo]
      rw [unquoteAsciiRun]
      simp [utf8Decode, percentDecodeBytes]
  | cons c cs =>
      rw [unquoteGo, if_pos (h c (by simp))]
      rw [List.takeWhile_eq_self_iff.mpr h, List.dropWhile_eq_nil_iff.mpr h]
      rw [unquoteGo]
      simp

theorem unquote_ascii (s : List Char) (h : ∀ c ∈ s, isAsciiCh c = true) :
    unquote s = unquoteAsciiRun s := by
  by_cases hp : '%' ∈ s
  · rw [unquote, if_pos hp, unquoteGo_ascii s h]
  · rw [unquote, if_neg hp, unquoteAsciiRun,
      percentDecode_no37 _ (by
        intro hmem
        apply hp
        rw [List.mem_map] at hmem
        obtain ⟨c, hc, hcn⟩ := hmem
        have : c = '%' := by
          have h1 := congrArg Char.ofNat hcn
          rwa [Char.ofNat_toNat, show Char.ofNat 37 = '%' from rfl] at h1
        exact this ▸ hc),
      utf8Decode_ascii _ (by
        intro b hb
        rw [List.mem_map] at hb
        obtain ⟨c, hc, hcn⟩ := hb
        have := h c hc
        simp only [isAsciiCh, decide_eq_true_eq] at this
        omega)]
    rw [List.map_map]
    have : (Char.ofNat ∘ Char.toNat) = id := by
      funext c
      exact Char.ofNat_toNat c
    rw [this, List.map_id]

/-- `unquote_plus` is a left inverse of `quote_plus`. -/
theorem unquote_plus_quote_plus (s : List Char) :
    unquote_plus (quote_plus s) = s := by
  rw [unquote_plus, quote_plus]
  rw [unquote_ascii _ (by
    intro c hc
    rw [List.mem_map] at hc
    obtain ⟨c0, hc0, hcc⟩ := hc
    rw [List.mem_bind] at hc0
    obtain ⟨b, hb, hcb⟩ := hc0
    have hba := quotePlusByte_ascii b (utf8Encode_lt_256 s b hb) c0 hcb
    subst hcc
    by_cases hplus : c0 = '+'
    · rw [if_pos hplus]; decide
    · rwa [if_neg hplus])]
  rw [unquoteAsciiRun, percentDecode_quotePlus_bytes _ (utf8Encode_lt_256 s),
    utf8Decode_encode]

/-- `str.split(sep, 1)` when `sep` occurs: the part before the first `sep`
and everything after it. -/
def splitFirst (sep : Char) : List Char → Option (List Char × List Char)
  | [] => none
  | c :: cs =>
    if c = sep then some ([], cs)
    else (splitFirst sep cs).map (fun p => (c :: p.1, p.2))

/-- `urllib.parse.parse_qsl(qs, keep_blank_values=True)` (separator `&`):
split on `&`, skip empty chunks, split each chunk at its first `=` (a chunk
without `=` gets a blank value), `unquote_plus` both name and value. -/
def parse_qsl (qs : List Char) : List (List Char × List Char) :=
  if qs = [] then []
  else
    (qs.splitOn '&').filterMap (fun nv =>
      if nv = [] then none
      else
        match splitFirst '=' nv with
        | some (n, v) => some (unquote_plus n, unquote_plus v)
        | none => some (unquote_plus nv, unquote_plus []))

/-- `urllib.parse.urlencode(pairs, doseq=True)` over string pairs (the only
shape `normalize_url` passes: `parse_qsl` returns `str` pairs, for which the
`doseq` branch quotes the value like the non-`doseq` one): quote each name
and value with `quote_plus`, join `name=value` chunks with `&`. -/
def urlencode (l : List (List Char × List Char)) : List Char :=
  List.intercalate ['&']
    (l.map (fun p => quote_plus p.1 ++ '=' :: quote_plus p.2))

theorem quotePlusByte_chars (b : Nat) (hb : b < 256) :
    ∀ c ∈ quotePlusByte b, 33 ≤ c.toNat ∧ c.toNat ≤ 126 ∧ c.toNat ≠ 38 ∧
      c.toNat ≠ 61 ∧ c.toNat ≠ 35 ∧ c.toNat ≠ 63 := by
  intro c hc
  rw [quotePlusByte] at hc
  split_ifs at hc with h1 h2
  · simp at hc; subst hc; decide
  · simp at hc
    subst hc
    have hf := alwaysSafeByte_facts b h2
    have hsafe := h2
    simp only [alwaysSafeByte, decide_eq_true_eq] at hsafe
    rw [Char_toNat_ofNat b (by omega)]
    omega
  · have hx : ∀ n, n < 16 → 33 ≤ (hexUpper n).toNat ∧ (hexUpper n).toNat ≤ 126 ∧
        (hexUpper n).toNat ≠ 38 ∧ (hexUpper n).toNat ≠ 61 ∧
        (hexUpper n).toNat ≠ 35 ∧ (hexUpper n).toNat ≠ 63 := by
      intro n hn
      rw [hexUpper_toNat n hn]
      split_ifs <;> omega
    simp at hc
    rcases hc with hc | hc | hc
    · subst hc; decide
    · subst hc; exact hx _ (by omega)
    · subst hc; exact hx _ (Nat.mod_lt _ (by omega))

theorem quote_plus_chars (s : List Char) :
    ∀ c ∈ quote_plus s, 33 ≤ c.toNat ∧ c.toNat ≤ 126 ∧ c.toNat ≠ 38 ∧
      c.toNat ≠ 61 ∧ c.toNat ≠ 35 ∧ c.toNat ≠ 63 := by
  intro c hc
  rw [quote_plus, List.mem_bind] at hc
  obtain ⟨b, hb, hcb⟩ := hc
  exact quotePlusByte_chars b (utf8Encode_lt_256 s b hb) c hcb

theorem splitFirst_append_sep (sep : Char) (pre post : List Char)
    (h : sep ∉ pre) :
    splitFirst sep (pre ++ sep :: post) = some (pre, post) := by
  induction pre with
  | nil => simp [splitFirst]
  | cons c cs ih =>
      have hc : ¬ (c = sep) := fun hEq => h (hEq ▸ List.mem_cons_self c cs)
      rw [List.cons_append, splitFirst, if_neg hc,
        ih (fun hm => h (List.mem_cons_of_mem c hm))]
      rfl

/-- The chunk built for one pair by `urlencode`. -/
theorem parse_chunk_of_pair (n v : List Char) :
    (fun nv =>
        if nv = [] then none
        else
          match splitFirst '=' nv with
          | some (p, q) => some (unquote_plus p, unquote_plus q)
          | none => some (unquote_plus nv, unquote_plus []))
      (quote_plus n ++ '=' :: quote_plus v) = some (n, v) := by
  have hne : quote_plus n ++ '=' :: quote_plus v ≠ [] := by
    intro hEq
    have := congrArg List.length hEq
    simp [List.length_append] at this
  have hsep : '=' ∉ quote_plus n := by
    intro hm
    have := (quote_plus_chars n '=' hm).2.2.2.1
    simp at this
  simp only [hne, if_false, ite_false,
    splitFirst_append_sep '=' (quote_plus n) (quote_plus v) hsep]
  rw [unquote_plus_quote_plus, unquote_plus_quote_plus]

/-- `parse_qsl` is a left inverse of `urlencode`: no key (or value) is
dropped or changed by re-encoding a parsed query. -/
theorem parse_qsl_urlencode (l : List (List Char × List Char)) :
    parse_qsl (urlencode l) = l := by
  cases l with
  | nil => rfl
  | cons p rest =>
      set segs := (p :: rest).map
        (fun p => quote_plus p.1 ++ '=' :: quote_plus p.2) with hsegs
      have hsegne : ∀ seg ∈ segs, seg ≠ [] := by
        intro seg hseg
        rw [hsegs, List.mem_map] at hseg
        obtain ⟨q, _, hq⟩ := hseg
        intro hEq
        rw [← hq] at hEq
        have := congrArg List.length hEq
        simp [List.length_append] at this
      have hamp : ∀ seg ∈ segs, '&' ∉ seg := by
        intro seg hseg c
        rw [hsegs, List.mem_map] at hseg
        obtain ⟨q, _, hq⟩ := hseg
        rw [← hq] at c
        rw [List.mem_append] at c
        rcases c with c | c
        · have := (quote_plus_chars q.1 '&' c).2.2.1
          simp at this
        · rcases List.mem_cons.mp c with c | c
          · exact absurd c.symm (by decide)
          · have := (quote_plus_chars q.2 '&' c).2.2.1
            simp at this
      have hqs : urlencode (p :: rest) = List.intercalate ['&'] segs := rfl
      have h0 : segs ≠ [] := by rw [hsegs]; simp
      have hqsne : List.intercalate ['&'] segs ≠ [] := by
        intro hEq
        have hsp := List.splitOn_intercalate segs '&' hamp h0
        rw [hEq] at hsp
        have hmem : ([] : List Char) ∈ segs := by
          rw [← hsp]
          decide
        exact hsegne [] hmem rfl
      rw [hqs, parse_qsl, if_neg hqsne,
        List.splitOn_intercalate segs '&' hamp h0]
      rw [hsegs, List.filterMap_map]
      have hpt : ∀ q : List Char × List Char,
          ((fun nv =>
            if nv = [] then none
            else
              match splitFirst '=' nv with
              | some (n, v) => some (unquote_plus n, unquote_plus v)
              | none => some (unquote_plus nv, unquote_plus [])) ∘
            (fun p => quote_plus p.1 ++ '=' :: quote_plus p.2)) q = some q := by
        intro q
        have := parse_chunk_of_pair q.1 q.2
        simpa using this
      induction (p :: rest) with
      | nil => rfl
      | cons x xs ih =>
          rw [List.filterMap_cons, hpt x, ih]

/-- ASCII lowercasing (`str.lower` restricted to the ASCII letters, the only
case-bearing characters a valid scheme can contain). -/
def asciiLower (c : Char) : Char :=
  if 65 ≤ c.toNat ∧ c.toNat ≤ 90 then Char.ofNat (c.toNat + 32) else c

def isAsciiAlpha (c : Char) : Bool :=
  (65 ≤ c.toNat ∧ c.toNat ≤ 90) ∨ (97 ≤ c.toNat ∧ c.toNat ≤ 122)

def isDigitCh (c : Char) : Bool := 48 ≤ c.toNat ∧ c.toNat ≤ 57

def isHexDigitCh (c : Char) : Bool :=
  isDigitCh c ∨ (65 ≤ c.toNat ∧ c.toNat ≤ 70) ∨ (97 ≤ c.toNat ∧ c.toNat ≤ 102)

/-- urllib's `scheme_chars`. -/
def isSchemeChar (c : Char) : Bool :=
  isAsciiAlpha c ∨ isDigitCh c ∨ c = '+' ∨ c = '-' ∨ c = '.'

/-- The result of `urlsplit`. -/
structure SplitResult where
  scheme : List Char
  netloc : List Char
  path : List Char
  query : List Char
  fragment : List Char
deriving DecidableEq, Repr

def digitsToNat (s : List Char) : Nat :=
  s.foldl (fun acc c => acc * 10 + (c.toNat - 48)) 0

/-- One octet of `ipaddress.IPv4Address`: 1–3 decimal digits, ≤ 255, no
leading zeros. -/
def ipv4OctetOk (s : List Char) : Bool :=
  s ≠ [] ∧ s.length ≤ 3 ∧ s.all isDigitCh ∧
    (s.head? = some '0' → s = ['0']) ∧ digitsToNat s ≤ 255

/-- A dotted-quad `ipaddress.IPv4Address` literal. -/
def isValidIPv4 (s : List Char) : Bool :=
  match s.splitOn '.' with
  | [a, b, c, d] => ipv4OctetOk a ∧ ipv4OctetOk b ∧ ipv4OctetOk c ∧ ipv4OctetOk d
  | _ => false

/-- One IPv6 hextet: 1–4 hex digits. -/
def parseHextetOk (s : List Char) : Bool :=
  s ≠ [] ∧ s.length ≤ 4 ∧ s.all isHexDigitCh

/-- The textual grammar of `ipaddress.IPv6Address` without a scope id
(`_ip_int_from_string`): split on `:`; an IPv4 dotted-quad suffix stands for
two hextets; at most 9 parts; at most one empty part strictly inside (the
`::` compressor), an empty endpoint only next to it; the compressor must
skip at least one hextet; without a compressor, exactly 8 valid hextets. -/
def ipv6AddrOk (s : List Char) : Bool :=
  if s = [] then false
  else
    let parts0 := s.splitOn ':'
    if parts0.length < 3 then false
    else
      let lastHasDot : Bool := match parts0.getLast? with
        | some l => decide ('.' ∈ l)
        | none => false
      if lastHasDot && ! isValidIPv4 ((parts0.getLast?).getD []) then false
      else
        let parts := if lastHasDot then parts0.dropLast ++ [['0'], ['0']]
          else parts0
        if 9 < parts.length then false
        else
          let len := parts.length
          match (List.range len).filter
              (fun i => 0 < i ∧ i < len - 1 ∧ parts.getD i [] = []) with
          | [] => len = 8 ∧ parts.all parseHextetOk
          | [i] =>
            let hi : Option Nat :=
              if parts.head? = some ([] : List Char) then
                (if i = 1 then some 0 else none)
              else some i
            let lo : Option Nat :=
              if parts.getLast? = some ([] : List Char) then
                (if i = len - 2 then some 0 else none)
              else some (len - i - 1)
            match hi, lo with
            | some h, some l =>
                h + l ≤ 7 ∧ (parts.take h).all parseHextetOk ∧
                  (parts.drop (len - l)).all parseHextetOk
            | _, _ => false
          | _ => false

/-- `ipaddress.IPv6Address` with an optional nonempty `%scope` suffix. -/
def isValidIPv6 (s : List Char) : Bool :=
  match splitFirst '%' s with
  | some (addr, scope) => scope ≠ [] ∧ '%' ∉ scope ∧ ipv6AddrOk addr
  | none => ipv6AddrOk s

/-- The IPvFuture regex `\Av[a-fA-F0-9]+\..+\Z`. -/
def ipvFutureOk (h : List Char) : Bool :=
  match h with
  | 'v' :: rest =>
      (rest.takeWhile isHexDigitCh ≠ []) &&
        (match rest.dropWhile isHexDigitCh with
          | '.' :: tail => tail ≠ [] && '\n' ∉ tail
          | _ => false)
  | _ => false

/-- `urllib.parse._check_bracketed_host`: an IPvFuture literal (leading `v`)
must match the regex; otherwise the host must parse with
`ipaddress.ip_address` and not be IPv4 — i.e. it must be a valid IPv6
literal. -/
def check_bracketed_host (hostname : List Char) : Bool :=
  if hostname.head? = some 'v' then ipvFutureOk hostname
  else if isValidIPv4 hostname then false
  else isValidIPv6 hostname

/-- The tail of `urlsplit` after scheme and netloc handling: split off the
fragment at the first `#`, then the query at the first `?`.
(`_checknetloc` returns immediately for ASCII netlocs; its NFKC check for
non-ASCII netlocs is not modelled.) -/
def urlsplitFinish (scheme netloc url : List Char) : SplitResult :=
  let fs := match splitFirst '#' url with
    | some p => p
    | none => (url, [])
  let ps := match splitFirst '?' fs.1 with
    | some p => p
    | none => (fs.1, [])
  ⟨scheme, netloc, ps.1, ps.2, fs.2⟩

/-- A character that does not end the netloc: `_splitnetloc` scans up to the
first of `/`, `?`, `#`. -/
def nonDelim (c : Char) : Bool := ¬ (c = '/' ∨ c = '?' ∨ c = '#')

/-- Scheme extraction inside `urlsplit`: the part before the first `:` is a
scheme when it is nonempty, starts with an ASCII letter and holds only
scheme characters; it is then lowercased, otherwise the scheme stays empty
and the whole string is the rest. -/
def splitScheme (url : List Char) : List Char × List Char :=
  match splitFirst ':' url with
  | some (before, after) =>
      if before ≠ [] ∧ (before.head?.map isAsciiAlpha).getD false = true ∧
          before.all isSchemeChar then
        (before.map asciiLower, after)
      else (([] : List Char), url)
  | none => (([] : List Char), url)

/-- `urllib.parse.urlsplit(url)` (CPython 3.11, `allow_fragments=True`,
default empty scheme): left-strip WHATWG C0-control-or-space characters,
remove tab/CR/LF, extract a valid scheme (lowercased), extract the netloc
after `//` (validating bracketed IPv6/IPvFuture hosts), then fragment and
query. -/
def urlsplit (url : List Char) : Except (List Char) SplitResult :=
  let url := url.dropWhile (fun c => c.toNat ≤ 0x20)
  let url := url.filter (fun c => ¬ (c = '\t' ∨ c = '\r' ∨ c = '\n'))
  let sp := splitScheme url
  let scheme := sp.1
  let url := sp.2
  if url.take 2 = ['/', '/'] then
    let netloc := (url.drop 2).takeWhile nonDelim
    let rest := (url.drop 2).dropWhile nonDelim
    if ('[' ∈ netloc ∧ ']' ∉ netloc) ∨ (']' ∈ netloc ∧ '[' ∉ netloc) then
      .error "Invalid IPv6 URL".data
    else if '[' ∈ netloc ∧ ']' ∈ netloc then
      let afterBracket := match splitFirst '[' netloc with
        | some p => p.2
        | none => []
      let bracketed := match splitFirst ']' afterBracket with
        | some p => p.1
        | none => afterBracket
      if check_bracketed_host bracketed then
        .ok (urlsplitFinish scheme netloc rest)
      else .error "invalid bracketed host".data
    else .ok (urlsplitFinish scheme netloc rest)
  else .ok (urlsplitFinish scheme [] url)

/-- urllib's `uses_netloc` table. -/
def uses_netloc : List (List Char) :=
  ["", "ftp", "http", "gopher", "nntp", "telnet", "imap", "wais", "file",
    "mms", "https", "shttp", "snews", "prospero", "rtsp", "rtsps", "rtspu",
    "rsync", "svn", "svn+ssh", "sftp", "nfs", "git", "git+ssh", "ws",
    "wss"].map String.data

/-- `urllib.parse.urlunsplit`. -/
def urlunsplit (r : SplitResult) : List Char :=
  let url := r.path
  let url :=
    if r.netloc ≠ [] ∨ (r.scheme ≠ [] ∧ r.scheme ∈ uses_netloc ∧
        url.take 2 ≠ ['/', '/']) then
      let url' := if url ≠ [] ∧ url.take 1 ≠ ['/'] then '/' :: url else url
      '/' :: '/' :: (r.netloc ++ url')
    else url
  let url := if r.scheme ≠ [] then r.scheme ++ ':' :: url else url
  let url := if r.query ≠ [] then url ++ '?' :: r.query else url
  if r.fragment ≠ [] then url ++ '#' :: r.fragment else url

/-- `normalize_url` (`src/core/url.py`): reject empty input; strip the
characters with code point below 32 and the surrounding whitespace; reject
if nothing remains; `urlsplit`; reject a missing or non-http(s) scheme;
re-encode the query as `urlencode(parse_qsl(query, keep_blank_values=True),
doseq=True)`; reassemble with `urlunsplit`. -/
def normalize_url (url : List Char) : Except (List Char) (List Char) :=
  if url = [] then .error "URL cannot be empty".data
  else
    let url := pyStrip (url.filter (fun c => 32 ≤ c.toNat))
    if url = [] then .error "URL is empty after stripping whitespace".data
    else
      match urlsplit url with
      | .error e => .error e
      | .ok parts =>
        if parts.scheme = [] then
          .error "URL must have scheme (http/https)".data
        else if ¬ (parts.scheme = "http".data ∨ parts.scheme = "https".data) then
          .error "URL scheme must be http or https".data
        else
          let query := urlencode (parse_qsl parts.query)
          .ok (urlunsplit ⟨parts.scheme, parts.netloc, parts.path, query,
            parts.fragment⟩)

/-- The Unicode control characters (general category Cc): the C0 range
below U+0020, DEL (U+007F), and the C1 range U+0080–U+009F. -/
def isUnicodeControl (c : Char) : Bool :=
  c.toNat < 32 ∨ (127 ≤ c.toNat ∧ c.toNat ≤ 159)

/-- The validity notion under which idempotence is claimed: an absolute
http/https URL in graphic ASCII (no whitespace, no control characters),
with an all-letter scheme and a nonempty, non-bracketed host — brackets
(IPv6/IPvFuture hosts) and empty hosts (forbidden for http by RFC 7230)
are left out. -/
def validHttpUrl (u : List Char) : Bool :=
  u.all (fun c => 33 ≤ c.toNat ∧ c.toNat ≤ 126) &&
    match splitFirst ':' u with
    | some (sch, rest) =>
        sch.all isAsciiAlpha &&
        decide (sch.map asciiLower = "http".data ∨
          sch.map asciiLower = "https".data) &&
        decide (rest.take 2 = ['/', '/']) &&
        (let host := (rest.drop 2).takeWhile nonDelim
         decide (host ≠ [] ∧ '[' ∉ host ∧ ']' ∉ host))
    | none => false

theorem splitFirst_eq_some (sep : Char) (l a b : List Char)
    (h : splitFirst sep l = some (a, b)) : l = a ++ sep :: b ∧ sep ∉ a := by
  induction l generalizing a with
  | nil => simp [splitFirst] at h
  | cons c cs ih =>
      rw [splitFirst] at h
      by_cases hc : c = sep
      · rw [if_pos hc] at h
        simp only [Option.some.injEq, Prod.mk.injEq] at h
        obtain ⟨h1, h2⟩ := h
        subst h1; subst h2; subst hc
        simp
      · rw [if_neg hc] at h
        cases hsp : splitFirst sep cs with
        | none => rw [hsp] at h; simp at h
        | some p =>
            obtain ⟨pa, pb⟩ := p
            rw [hsp] at h
            simp only [Option.map_some', Option.some.injEq, Prod.mk.injEq] at h
            obtain ⟨h1, h2⟩ := h
            rw [h2] at hsp
            obtain ⟨ha, hna⟩ := ih pa hsp
            constructor
            · rw [← h1, List.cons_append, ← ha]
            · rw [← h1]
              intro hm
              rcases List.mem_cons.mp hm with hm | hm
              · exact hc hm.symm
              · exact hna hm

theorem splitFirst_none_iff (sep : Char) (l : List Char) :
    splitFirst sep l = none ↔ sep ∉ l := by
  induction l with
  | nil => simp [splitFirst]
  | cons c cs ih =>
      rw [splitFirst]
      by_cases hc : c = sep
      · subst hc; simp
      · rw [if_neg hc]
        cases hsp : splitFirst sep cs with
        | none =>
            simp only [Option.map_none']
            constructor
            · intro _ hm
              rcases List.mem_cons.mp hm with hm | hm
              · exact hc hm.symm
              · exact (ih.mp hsp) hm
            · intro _
              trivial
        | some p =>
            simp only [Option.map_some']
            constructor
            · intro h; simp at h
            · intro h
              have : splitFirst sep cs = none :=
                ih.mpr (fun hm => h (List.mem_cons_of_mem c hm))
              rw [this] at hsp
              exact absurd hsp (by simp)

theorem takeWhile_append_all {p : Char → Bool} {a : List Char} (b : List Char)
    (h : ∀ c ∈ a, p c = true) :
    (a ++ b).takeWhile p = a ++ b.takeWhile p := by
  induction a with
  | nil => simp
  | cons x xs ih =>
      rw [List.cons_append, List.takeWhile_cons_of_pos (h x (by simp)),
        ih (fun c hc => h c (List.mem_cons_of_mem x hc)), List.cons_append]

theorem dropWhile_append_all {p : Char → Bool} {a : List Char} (b : List Char)
    (h : ∀ c ∈ a, p c = true) :
    (a ++ b).dropWhile p = b.dropWhile p := by
  induction a with
  | nil => simp
  | cons x xs ih =>
      rw [List.cons_append, List.dropWhile_cons_of_pos (h x (by simp)),
        ih (fun c hc => h c (List.mem_cons_of_mem x hc))]

theorem takeWhile_nil_of_head {p : Char → Bool} (l : List Char)
    (h : ∀ c, l.head? = some c → p c = false) :
    l.takeWhile p = [] ∧ l.dropWhile p = l := by
  cases l with
  | nil => simp
  | cons x xs =>
      have hx := h x rfl
      rw [List.takeWhile_cons_of_neg (by simp [hx]),
        List.dropWhile_cons_of_neg (by simp [hx])]
      exact ⟨rfl, rfl⟩

theorem dropWhile_eq_self_of_neg {p : Char → Bool} (l : List Char)
    (h : ∀ c ∈ l, p c = false) : l.dropWhile p = l := by
  cases l with
  | nil => simp
  | cons x xs => rw [List.dropWhile_cons_of_neg (by simp [h x (by simp)])]

theorem rdropWhile_eq_self_of_neg {p : Char → Bool} (l : List Char)
    (h : ∀ c ∈ l, p c = false) : l.rdropWhile p = l := by
  rw [List.rdropWhile, dropWhile_eq_self_of_neg l.reverse
    (fun c hc => h c (List.mem_reverse.mp hc)), List.reverse_reverse]

theorem graphic_not_pyspace (c : Char) (h : 33 ≤ c.toNat ∧ c.toNat ≤ 126) :
    isPySpace c = false := by
  simp only [isPySpace, decide_eq_false_iff_not]
  omega

theorem pyStrip_eq_self_of_graphic (s : List Char)
    (h : ∀ c ∈ s, 33 ≤ c.toNat ∧ c.toNat ≤ 126) : pyStrip s = s := by
  rw [pyStrip, dropWhile_eq_self_of_neg s
    (fun c hc => graphic_not_pyspace c (h c hc)),
    rdropWhile_eq_self_of_neg s (fun c hc => graphic_not_pyspace c (h c hc))]

theorem mem_pyStrip (s : List Char) (c : Char) (h : c ∈ pyStrip s) : c ∈ s := by
  rw [pyStrip] at h
  have h1 : c ∈ s.dropWhile isPySpace :=
    (List.rdropWhile_prefix isPySpace _).subset h
  exact (List.dropWhile_sublist isPySpace).subset h1

theorem asciiLower_toNat (c : Char) :
    (asciiLower c).toNat = c.toNat ∨ (asciiLower c).toNat = c.toNat + 32 := by
  rw [asciiLower]
  split_ifs with h
  · right
    exact Char_toNat_ofNat (c.toNat + 32) (by omega)
  · left; rfl

theorem isSchemeChar_of_alpha (c : Char) (h : isAsciiAlpha c = true) :
    isSchemeChar c = true := by
  simp only [isSchemeChar, Bool.decide_or, Bool.or_eq_true, decide_eq_true_eq]
  simp only [isAsciiAlpha] at h
  tauto

theorem nonDelim_false (c : Char) (h : nonDelim c = false) :
    c = '/' ∨ c = '?' ∨ c = '#' := by
  simp only [nonDelim, decide_not, Bool.not_eq_false', decide_eq_true_eq] at h
  exact h

theorem intercalate_amp_cons (x y : List Char) (t : List (List Char)) :
    List.intercalate ['&'] (x :: y :: t)
      = x ++ '&' :: List.intercalate ['&'] (y :: t) := by
  simp [List.intercalate, List.intersperse_cons_cons]

/-- Every character of an `urlencode` output is graphic ASCII and is
neither `#` nor `?`. -/
theorem urlencode_chars (l : List (List Char × List Char)) :
    ∀ c ∈ urlencode l, 33 ≤ c.toNat ∧ c.toNat ≤ 126 ∧ c.toNat ≠ 35 ∧
      c.toNat ≠ 63 := by
  induction l with
  | nil => intro c hc; simp [urlencode, List.intercalate] at hc
  | cons p rest ih =>
      intro c hc
      have hchunk : ∀ d ∈ quote_plus p.1 ++ '=' :: quote_plus p.2,
          33 ≤ d.toNat ∧ d.toNat ≤ 126 ∧ d.toNat ≠ 35 ∧ d.toNat ≠ 63 := by
        intro d hd
        rcases List.mem_append.mp hd with hd | hd
        · have h0 := quote_plus_chars p.1 d hd
          exact ⟨h0.1, h0.2.1, h0.2.2.2.2.1, h0.2.2.2.2.2⟩
        · rcases List.mem_cons.mp hd with hd | hd
          · subst hd
            refine ⟨by decide, by decide, by decide, by decide⟩
          · have h0 := quote_plus_chars p.2 d hd
            exact ⟨h0.1, h0.2.1, h0.2.2.2.2.1, h0.2.2.2.2.2⟩
      cases rest with
      | nil =>
          have he : urlencode [p] = quote_plus p.1 ++ '=' :: quote_plus p.2 := by
            simp [urlencode, List.intercalate]
          rw [he] at hc
          exact hchunk c hc
      | cons q t =>
          rw [urlencode, List.map_cons, List.map_cons, intercalate_amp_cons] at hc
          rcases List.mem_append.mp hc with hd | hd
          · exact hchunk c hd
          · rcases List.mem_cons.mp hd with hd | hd
            · subst hd
              exact ⟨by decide, by decide, by decide, by decide⟩
            · exact ih c hd

theorem head?_append_left (a b : List Char) (h : a ≠ []) :
    (a ++ b).head? = a.head? := by
  cases a with
  | nil => exact absurd rfl h
  | cons x xs => rfl

/-- Shape of `urlsplitFinish`: path, query and fragment partition the given
tail, the path holds no `#` or `?`, the query no `#`, and the path starts
where the tail starts. -/
theorem urlsplitFinish_parts (s n url : List Char) :
    ∃ path q f, urlsplitFinish s n url = ⟨s, n, path, q, f⟩ ∧
      '#' ∉ path ∧ '?' ∉ path ∧ '#' ∉ q ∧
      (path = [] ∨ path.head? = url.head?) ∧
      (∀ c ∈ path, c ∈ url) ∧ (∀ c ∈ q, c ∈ url) ∧ (∀ c ∈ f, c ∈ url) := by
  cases hf : splitFirst '#' url with
  | none =>
      have hnf : '#' ∉ url := (splitFirst_none_iff '#' url).mp hf
      cases hq : splitFirst '?' url with
      | none =>
          have hnq : '?' ∉ url := (splitFirst_none_iff '?' url).mp hq
          exact ⟨url, [], [], by simp [urlsplitFinish, hf, hq], hnf, hnq,
            by simp, Or.inr rfl, fun c hc => hc, by simp, by simp⟩
      | some pq =>
          obtain ⟨a, b⟩ := pq
          obtain ⟨hurl, hna⟩ := splitFirst_eq_some '?' url a b hq
          refine ⟨a, b, [], by simp [urlsplitFinish, hf, hq], ?_, hna, ?_,
            ?_, ?_, ?_, by simp⟩
          · exact fun hm => hnf (by rw [hurl]; exact List.mem_append_left _ hm)
          · exact fun hm => hnf (by
              rw [hurl]
              exact List.mem_append_right _ (List.mem_cons_of_mem _ hm))
          · cases a with
            | nil => exact Or.inl rfl
            | cons x xs =>
                right
                rw [hurl, head?_append_left _ _ (by simp)]
          · intro c hc
            rw [hurl]
            exact List.mem_append_left _ hc
          · intro c hc
            rw [hurl]
            exact List.mem_append_right _ (List.mem_cons_of_mem _ hc)
  | some pf =>
      obtain ⟨ab, f⟩ := pf
      obtain ⟨hurl, hnab⟩ := splitFirst_eq_some '#' url ab f hf
      have hmemab : ∀ c ∈ ab, c ∈ url := by
        intro c hc
        rw [hurl]
        exact List.mem_append_left _ hc
      have hmemf : ∀ c ∈ f, c ∈ url := by
        intro c hc
        rw [hurl]
        exact List.mem_append_right _ (List.mem_cons_of_mem _ hc)
      cases hq : splitFirst '?' ab with
      | none =>
          have hnq : '?' ∉ ab := (splitFirst_none_iff '?' ab).mp hq
          refine ⟨ab, [], f, by simp [urlsplitFinish, hf, hq], hnab, hnq,
            by simp, ?_, hmemab, by simp, hmemf⟩
          cases ab with
          | nil => exact Or.inl rfl
          | cons x xs =>
              right
              rw [hurl, head?_append_left _ _ (by simp)]
      | some pq =>
          obtain ⟨a, b⟩ := pq
          obtain ⟨hab, hna⟩ := splitFirst_eq_some '?' ab a b hq
          have hmema : ∀ c ∈ a, c ∈ ab := by
            intro c hc
            rw [hab]
            exact List.mem_append_left _ hc
          have hmemb : ∀ c ∈ b, c ∈ ab := by
            intro c hc
            rw [hab]
            exact List.mem_append_right _ (List.mem_cons_of_mem _ hc)
          refine ⟨a, b, f, by simp [urlsplitFinish, hf, hq], ?_, hna, ?_,
            ?_, fun c hc => hmemab c (hmema c hc),
            fun c hc => hmemab c (hmemb c hc), hmemf⟩
          · exact fun hm => hnab (hmema _ hm)
          · exact fun hm => hnab (hmemb _ hm)
          · cases a with
            | nil => exact Or.inl rfl
            | cons x xs =>
                right
                rw [hurl, hab, List.append_assoc,
                  head?_append_left _ _ (by simp)]

/-- `urlsplitFinish` reassembled from clean components recovers them. -/
theorem urlsplitFinish_assembled (s n path q f : List Char)
    (hp1 : '#' ∉ path) (hp2 : '?' ∉ path) (hq1 : '#' ∉ q) (hq2 : '?' ∉ q) :
    urlsplitFinish s n
      (path ++ (if q = [] then [] else '?' :: q) ++
        (if f = [] then [] else '#' :: f)) = ⟨s, n, path, q, f⟩ := by
  have hnomix : '#' ∉ path ++ '?' :: q := by
    intro hm
    rcases List.mem_append.mp hm with hm | hm
    · exact hp1 hm
    · rcases List.mem_cons.mp hm with hm | hm
      · exact absurd hm (by decide)
      · exact hq1 hm
  by_cases hqe : q = []
  · by_cases hfe : f = []
    · subst hqe; subst hfe
      simp only [if_pos rfl, List.append_nil]
      have h1 : splitFirst '#' path = none := (splitFirst_none_iff _ _).mpr hp1
      have h2 : splitFirst '?' path = none := (splitFirst_none_iff _ _).mpr hp2
      simp [urlsplitFinish, h1, h2]
    · subst hqe
      simp only [if_pos rfl, List.append_nil, if_neg hfe]
      have h1 : splitFirst '#' (path ++ '#' :: f) = some (path, f) :=
        splitFirst_append_sep '#' path f hp1
      have h2 : splitFirst '?' path = none := (splitFirst_none_iff _ _).mpr hp2
      simp [urlsplitFinish, h1, h2]
  · by_cases hfe : f = []
    · subst hfe
      simp only [if_neg hqe, List.append_nil]
      have h1 : splitFirst '#' (path ++ '?' :: q) = none :=
        (splitFirst_none_iff _ _).mpr hnomix
      have h2 : splitFirst '?' (path ++ '?' :: q) = some (path, q) :=
        splitFirst_append_sep '?' path q hp2
      simp [urlsplitFinish, h1, h2]
    · simp only [if_neg hqe, if_neg hfe]
      have h1 : splitFirst '#' (path ++ '?' :: (q ++ '#' :: f))
          = some (path ++ '?' :: q, f) := by
        have h0 := splitFirst_append_sep '#' (path ++ '?' :: q) f hnomix
        simpa using h0
      have h2 : splitFirst '?' (path ++ '?' :: q) = some (path, q) :=
        splitFirst_append_sep '?' path q hp2
      simp [urlsplitFinish, h1, h2]

/-- Characters of a `splitScheme` output come from the input (the scheme
side lowercased). -/
theorem splitScheme_sub (url : List Char) :
    (∀ c ∈ (splitScheme url).1, ∃ c0 ∈ url, c = asciiLower c0) ∧
    (∀ c ∈ (splitScheme url).2, c ∈ url) := by
  cases hm : splitFirst ':' url with
  | none => simp [splitScheme, hm]
  | some pr =>
      obtain ⟨bef, aft⟩ := pr
      obtain ⟨hurl, hnb⟩ := splitFirst_eq_some ':' url bef aft hm
      by_cases hcond : bef ≠ [] ∧ (bef.head?.map isAsciiAlpha).getD false = true ∧
          bef.all isSchemeChar = true
      · simp only [splitScheme, hm]
        rw [if_pos hcond]
        constructor
        · intro c hc
          rw [List.mem_map] at hc
          obtain ⟨c0, hc0, hcc⟩ := hc
          exact ⟨c0, by rw [hurl]; exact List.mem_append_left _ hc0, hcc.symm⟩
        · intro c hc
          rw [hurl]
          exact List.mem_append_right _ (List.mem_cons_of_mem _ hc)
      · simp only [splitScheme, hm]
        rw [if_neg hcond]
        exact ⟨by simp, fun c hc => hc⟩

/-- On an all-letter nonempty scheme, `splitScheme` lowercases it and
returns the rest. -/
theorem splitScheme_of_valid (url bef aft : List Char)
    (hm : splitFirst ':' url = some (bef, aft))
    (halpha : bef.all isAsciiAlpha = true) (hne : bef ≠ []) :
    splitScheme url = (bef.map asciiLower, aft) := by
  have hhead : (bef.head?.map isAsciiAlpha).getD false = true := by
    cases bef with
    | nil => exact absurd rfl hne
    | cons x xs =>
        simp only [List.head?_cons, Option.map_some', Option.getD_some]
        exact List.all_eq_true.mp halpha x (by simp)
  have hsch : bef.all isSchemeChar = true := by
    rw [List.all_eq_true]
    intro c hc
    exact isSchemeChar_of_alpha c (List.all_eq_true.mp halpha c hc)
  simp only [splitScheme, hm]
  rw [if_pos ⟨hne, hhead, hsch⟩]

/-- Characters of a successful `urlsplit` all come from the input, the
scheme's after lowercasing. -/
theorem urlsplit_mem (u : List Char) (p : SplitResult) (h : urlsplit u = .ok p) :
    (∀ c ∈ p.scheme, ∃ c0 ∈ u, c = asciiLower c0) ∧
    (∀ c ∈ p.netloc, c ∈ u) ∧ (∀ c ∈ p.path, c ∈ u) ∧
    (∀ c ∈ p.query, c ∈ u) ∧ (∀ c ∈ p.fragment, c ∈ u) := by
  simp only [urlsplit] at h
  set u2 := (u.dropWhile (fun c => c.toNat ≤ 0x20)).filter
      (fun c => ¬ (c = '\t' ∨ c = '\r' ∨ c = '\n')) with hu2
  have hu2mem : ∀ c ∈ u2, c ∈ u := by
    intro c hc
    rw [hu2] at hc
    exact (List.dropWhile_sublist _).subset ((List.filter_sublist _).subset hc)
  have hsub := splitScheme_sub u2
  rcases hspl : splitScheme u2 with ⟨sch, rest⟩
  rw [hspl] at hsub h
  simp only at h
  have hschmem : ∀ c ∈ sch, ∃ c0 ∈ u, c = asciiLower c0 := by
    intro c hc
    obtain ⟨c0, hc0, hcc⟩ := hsub.1 c hc
    exact ⟨c0, hu2mem c0 hc0, hcc⟩
  have hrestmem : ∀ c ∈ rest, c ∈ u := fun c hc => hu2mem c (hsub.2 c hc)
  have hfin : ∀ s n url₀, (∀ c ∈ s, ∃ c0 ∈ u, c = asciiLower c0) →
      (∀ c ∈ n, c ∈ u) → (∀ c ∈ url₀, c ∈ u) →
      urlsplitFinish s n url₀ = p →
      (∀ c ∈ p.scheme, ∃ c0 ∈ u, c = asciiLower c0) ∧
      (∀ c ∈ p.netloc, c ∈ u) ∧ (∀ c ∈ p.path, c ∈ u) ∧
      (∀ c ∈ p.query, c ∈ u) ∧ (∀ c ∈ p.fragment, c ∈ u) := by
    intro s n url₀ hs hn hurl hfp
    obtain ⟨path, q, f, heq, _, _, _, _, hpm, hqm, hfm⟩ :=
      urlsplitFinish_parts s n url₀
    rw [heq] at hfp
    rw [← hfp]
    exact ⟨hs, hn, fun c hc => hurl c (hpm c hc),
      fun c hc => hurl c (hqm c hc), fun c hc => hurl c (hfm c hc)⟩
  split_ifs at h with h1 h2 h3 h4
  · exact hfin sch ((rest.drop 2).takeWhile nonDelim)
      ((rest.drop 2).dropWhile nonDelim) hschmem
      (fun c hc => hrestmem c ((List.drop_sublist 2 rest).subset
        ((List.takeWhile_sublist _).subset hc)))
      (fun c hc => hrestmem c ((List.drop_sublist 2 rest).subset
        ((List.dropWhile_sublist _).subset hc)))
      (Except.ok.inj h)
  · exact hfin sch ((rest.drop 2).takeWhile nonDelim)
      ((rest.drop 2).dropWhile nonDelim) hschmem
      (fun c hc => hrestmem c ((List.drop_sublist 2 rest).subset
        ((List.takeWhile_sublist _).subset hc)))
      (fun c hc => hrestmem c ((List.drop_sublist 2 rest).subset
        ((List.dropWhile_sublist _).subset hc)))
      (Except.ok.inj h)
  · exact hfin sch [] rest hschmem (by simp) hrestmem (Except.ok.inj h)

/-- Success shape of `normalize_url`: the output is the reassembly of the
split of the stripped input, query re-encoded, scheme http or https. -/
theorem normalize_url_ok_shape (u v : List Char) (h : normalize_url u = .ok v) :
    ∃ p, urlsplit (pyStrip (u.filter (fun c => 32 ≤ c.toNat))) = .ok p ∧
      (p.scheme = "http".data ∨ p.scheme = "https".data) ∧
      v = urlunsplit ⟨p.scheme, p.netloc, p.path,
        urlencode (parse_qsl p.query), p.fragment⟩ := by
  simp only [normalize_url] at h
  split_ifs at h with h1 h2
  cases hsp : urlsplit (pyStrip (u.filter (fun c => 32 ≤ c.toNat))) with
  | error e => rw [hsp] at h; simp at h
  | ok parts =>
      rw [hsp] at h
      simp only at h
      split_ifs at h with h3 h4
      exact ⟨parts, rfl, h4, (Except.ok.inj h).symm⟩

set_option maxHeartbeats 1600000 in
/-- Every character of an `urlunsplit` output comes from a component or is
one of the four inserted delimiters. -/
theorem urlunsplit_mem (r : SplitResult) (c : Char) (h : c ∈ urlunsplit r) :
    c ∈ r.scheme ∨ c ∈ r.netloc ∨ c ∈ r.path ∨ c ∈ r.query ∨
      c ∈ r.fragment ∨ c = ':' ∨ c = '/' ∨ c = '?' ∨ c = '#' := by
  simp only [urlunsplit] at h
  split_ifs at h
  all_goals first
    | (simp only [List.mem_append, List.mem_cons] at h; tauto)
    | tauto

/-- With a nonempty scheme, `urlunsplit` output is the scheme, a colon and
a tail. -/
theorem urlunsplit_scheme_shape (r : SplitResult) (h : r.scheme ≠ []) :
    ∃ t, urlunsplit r = r.scheme ++ ':' :: t := by
  have hstep : ∀ (x y : List Char), (∃ t, x = r.scheme ++ ':' :: t) →
      ∃ t, x ++ y = r.scheme ++ ':' :: t := by
    rintro x y ⟨t, ht⟩
    exact ⟨t ++ y, by rw [ht, List.append_assoc, List.cons_append]⟩
  simp only [urlunsplit]
  rw [if_pos h]
  split_ifs <;>
    first
      | exact ⟨_, rfl⟩
      | exact hstep _ _ ⟨_, rfl⟩
      | exact hstep _ _ (hstep _ _ ⟨_, rfl⟩)

/-- `urlsplit` computed on a URL with an all-letter scheme, a `//` and a
bracket-free netloc, in graphic ASCII. -/
theorem urlsplit_valid_compute (u sch rest : List Char)
    (hm : splitFirst ':' u = some (sch, rest))
    (halpha : sch.all isAsciiAlpha = true) (hne : sch ≠ [])
    (hall : ∀ c ∈ u, 33 ≤ c.toNat ∧ c.toNat ≤ 126)
    (hslash : rest.take 2 = ['/', '/'])
    (hlb : '[' ∉ (rest.drop 2).takeWhile nonDelim)
    (hrb : ']' ∉ (rest.drop 2).takeWhile nonDelim) :
    urlsplit u = .ok (urlsplitFinish (sch.map asciiLower)
      ((rest.drop 2).takeWhile nonDelim) ((rest.drop 2).dropWhile nonDelim)) := by
  have hdrop : u.dropWhile (fun c => c.toNat ≤ 0x20) = u :=
    dropWhile_eq_self_of_neg u (fun c hc => by
      have hg := hall c hc
      simp only [decide_eq_false_iff_not]
      omega)
  have hfilt : u.filter (fun c => ¬ (c = '\t' ∨ c = '\r' ∨ c = '\n')) = u :=
    List.filter_eq_self.mpr (fun c hc => by
      have hg := hall c hc
      simp only [decide_eq_true_eq]
      rintro (rfl | rfl | rfl) <;> simp at hg)
  have hss : splitScheme u = (sch.map asciiLower, rest) :=
    splitScheme_of_valid u sch rest hm halpha hne
  simp only [urlsplit]
  rw [hdrop, hfilt, hss]
  simp only
  rw [if_pos hslash]
  rw [if_neg (by
    rintro (⟨hin, _⟩ | ⟨hin, _⟩)
    · exact hlb hin
    · exact hrb hin)]
  rw [if_neg (by rintro ⟨hin, _⟩; exact hlb hin)]


theorem mem_opt_part (sep : Char) (s : List Char) (c : Char)
    (h : c ∈ (if s = [] then ([] : List Char) else sep :: s)) :
    c = sep ∨ c ∈ s := by
  split_ifs at h with he
  · simp at h
  · rcases List.mem_cons.mp h with h | h
    · exact Or.inl h
    · exact Or.inr h

/-- Explicit form of `urlunsplit` on a nonempty-host record whose path is
empty or slash-led. -/
theorem urlunsplit_explicit (lsch host path q f : List Char)
    (hl : lsch = "http".data ∨ lsch = "https".data)
    (hh : host ≠ [])
    (hph : path = [] ∨ path.head? = some '/') :
    urlunsplit ⟨lsch, host, path, q, f⟩
      = lsch ++ ':' :: '/' :: '/' :: (host ++ (path ++
          (if q = [] then [] else '?' :: q) ++
          (if f = [] then [] else '#' :: f))) := by
  have hlne : lsch ≠ [] := by rcases hl with rfl | rfl <;> simp
  have hurl' : (if path ≠ [] ∧ path.take 1 ≠ ['/'] then '/' :: path else path)
      = path := by
    rcases hph with hpe | hph
    · rw [if_neg]
      simp [hpe]
    · rw [if_neg]
      intro hcon
      apply hcon.2
      rw [List.take_one, hph]
      rfl
  simp only [urlunsplit]
  rw [if_pos (Or.inl hh), hurl', if_pos hlne]
  by_cases hqe : q = []
  · by_cases hfe : f = []
    · rw [if_neg (not_not_intro hqe), if_neg (not_not_intro hfe),
        if_pos hqe, if_pos hfe]
      simp [List.append_assoc]
    · rw [if_neg (not_not_intro hqe), if_pos hfe, if_pos hqe, if_neg hfe]
      simp [List.append_assoc]
  · by_cases hfe : f = []
    · rw [if_pos hqe, if_neg (not_not_intro hfe), if_neg hqe, if_pos hfe]
      simp [List.append_assoc]
    · rw [if_pos hqe, if_pos hfe, if_neg hqe, if_neg hfe]
      simp [List.append_assoc]


/-- Every `urlunsplit` reassembly of clean graphic components whose query
is an `urlencode` image is a fixed point of `normalize_url`. -/
theorem normalize_url_fixed (lsch host path f : List Char)
    (l0 : List (List Char × List Char))
    (hl : lsch = "http".data ∨ lsch = "https".data)
    (hh : host ≠ []) (hhd : ∀ c ∈ host, nonDelim c = true)
    (hlb : '[' ∉ host) (hrb : ']' ∉ host)
    (hhg : ∀ c ∈ host, 33 ≤ c.toNat ∧ c.toNat ≤ 126)
    (hph : path = [] ∨ path.head? = some '/')
    (hp1 : '#' ∉ path) (hp2 : '?' ∉ path)
    (hpg : ∀ c ∈ path, 33 ≤ c.toNat ∧ c.toNat ≤ 126)
    (hfg : ∀ c ∈ f, 33 ≤ c.toNat ∧ c.toNat ≤ 126) :
    normalize_url (urlunsplit ⟨lsch, host, path, urlencode l0, f⟩)
      = .ok (urlunsplit ⟨lsch, host, path, urlencode l0, f⟩) := by
  have hqc0 := urlencode_chars l0
  set q := urlencode l0 with hqdef
  have hqc : ∀ c ∈ q, 33 ≤ c.toNat ∧ c.toNat ≤ 126 ∧ c.toNat ≠ 35 ∧
      c.toNat ≠ 63 := hqc0
  have hq1 : '#' ∉ q := fun hm => (hqc '#' hm).2.2.1 rfl
  have hq2 : '?' ∉ q := fun hm => (hqc '?' hm).2.2.2 rfl
  have hlne : lsch ≠ [] := by rcases hl with rfl | rfl <;> simp
  have hv := urlunsplit_explicit lsch host path q f hl hh hph
  set T := path ++ (if q = [] then [] else '?' :: q) ++
      (if f = [] then [] else '#' :: f) with hT
  have hTg : ∀ c ∈ T, 33 ≤ c.toNat ∧ c.toNat ≤ 126 := by
    intro c hc
    rw [hT] at hc
    rcases List.mem_append.mp hc with hc | hc
    · rcases List.mem_append.mp hc with hc | hc
      · exact hpg c hc
      · rcases mem_opt_part '?' q c hc with rfl | hc
        · exact ⟨by decide, by decide⟩
        · exact ⟨(hqc c hc).1, (hqc c hc).2.1⟩
    · rcases mem_opt_part '#' f c hc with rfl | hc
      · exact ⟨by decide, by decide⟩
      · exact hfg c hc
  have hfullg : ∀ c ∈ lsch ++ ':' :: '/' :: '/' :: (host ++ T),
      33 ≤ c.toNat ∧ c.toNat ≤ 126 := by
    intro c hc
    rcases List.mem_append.mp hc with hc | hc
    · rcases hl with rfl | rfl <;> (fin_cases hc <;> exact ⟨by decide, by decide⟩)
    · rcases List.mem_cons.mp hc with rfl | hc
      · exact ⟨by decide, by decide⟩
      rcases List.mem_cons.mp hc with rfl | hc
      · exact ⟨by decide, by decide⟩
      rcases List.mem_cons.mp hc with rfl | hc
      · exact ⟨by decide, by decide⟩
      rcases List.mem_append.mp hc with hc | hc
      · exact hhg c hc
      · exact hTg c hc
  have hvg : ∀ c ∈ urlunsplit ⟨lsch, host, path, q, f⟩,
      33 ≤ c.toNat ∧ c.toNat ≤ 126 := by
    rw [hv]
    exact hfullg
  have hvne : urlunsplit ⟨lsch, host, path, q, f⟩ ≠ [] := by
    rw [hv]
    rcases hl with rfl | rfl <;> simp
  have hfilt : (urlunsplit ⟨lsch, host, path, q, f⟩).filter
      (fun c => 32 ≤ c.toNat) = urlunsplit ⟨lsch, host, path, q, f⟩ :=
    List.filter_eq_self.mpr (fun c hc => by
      have hg := hvg c hc
      simp only [decide_eq_true_eq]
      omega)
  have hstrip : pyStrip ((urlunsplit ⟨lsch, host, path, q, f⟩).filter
      (fun c => 32 ≤ c.toNat)) = urlunsplit ⟨lsch, host, path, q, f⟩ := by
    rw [hfilt]
    exact pyStrip_eq_self_of_graphic _ hvg
  have hThead : ∀ c, T.head? = some c → nonDelim c = false := by
    intro c hc
    rw [hT] at hc
    rcases hph with hpe | hph
    · rw [hpe] at hc
      simp only [List.nil_append] at hc
      by_cases hqe : q = []
      · rw [if_pos hqe] at hc
        simp only [List.nil_append] at hc
        by_cases hfe : f = []
        · rw [if_pos hfe] at hc
          simp at hc
        · rw [if_neg hfe] at hc
          simp at hc
          subst hc
          decide
      · rw [if_neg hqe] at hc
        rw [head?_append_left _ _ (by simp)] at hc
        simp at hc
        subst hc
        decide
    · cases path with
      | nil => simp at hph
      | cons pc pt =>
          have hpc : pc = '/' := by simpa using hph
          subst hpc
          rw [List.cons_append, List.cons_append] at hc
          simp at hc
          subst hc
          decide
  have hTsplit := takeWhile_nil_of_head T hThead
  have hnet : (host ++ T).takeWhile nonDelim = host := by
    rw [takeWhile_append_all T hhd, hTsplit.1, List.append_nil]
  have hrest : (host ++ T).dropWhile nonDelim = T := by
    rw [dropWhile_append_all T hhd, hTsplit.2]
  have hsplitv : urlsplit (urlunsplit ⟨lsch, host, path, q, f⟩)
      = .ok ⟨lsch, host, path, q, f⟩ := by
    rw [hv]
    have hcol : ':' ∉ lsch := by rcases hl with rfl | rfl <;> decide
    have hm : splitFirst ':' (lsch ++ ':' :: '/' :: '/' :: (host ++ T))
        = some (lsch, '/' :: '/' :: (host ++ T)) :=
      splitFirst_append_sep ':' lsch _ hcol
    have halpha : lsch.all isAsciiAlpha = true := by
      rcases hl with rfl | rfl <;> decide
    have happly := urlsplit_valid_compute
      (lsch ++ ':' :: '/' :: '/' :: (host ++ T)) lsch
      ('/' :: '/' :: (host ++ T)) hm halpha hlne hfullg rfl
      (by rw [show ('/' :: '/' :: (host ++ T)).drop 2 = host ++ T from rfl, hnet]
          exact hlb)
      (by rw [show ('/' :: '/' :: (host ++ T)).drop 2 = host ++ T from rfl, hnet]
          exact hrb)
    rw [show ('/' :: '/' :: (host ++ T)).drop 2 = host ++ T from rfl,
      hnet, hrest] at happly
    have hmap : lsch.map asciiLower = lsch := by
      rcases hl with rfl | rfl <;> decide
    rw [hmap] at happly
    rw [happly, hT]
    rw [urlsplitFinish_assembled lsch host path q f hp1 hp2 hq1 hq2]
  simp only [normalize_url]
  rw [hstrip, if_neg hvne, if_neg hvne, hsplitv]
  simp only
  rw [if_neg hlne, if_neg (not_not_intro hl)]
  have hqfix : urlencode (parse_qsl q) = q := by
    rw [hqdef, parse_qsl_urlencode]
  rw [hqfix]


/-- On a valid absolute http/https URL, `normalize_url` succeeds and its
output is the reassembly of clean components. -/
theorem normalize_url_of_valid (u : List Char) (h : validHttpUrl u = true) :
    ∃ lsch host path q f,
      (lsch = "http".data ∨ lsch = "https".data) ∧
      normalize_url u
        = .ok (urlunsplit ⟨lsch, host, path, urlencode (parse_qsl q), f⟩) ∧
      host ≠ [] ∧ (∀ c ∈ host, nonDelim c = true) ∧ '[' ∉ host ∧ ']' ∉ host ∧
      (∀ c ∈ host, 33 ≤ c.toNat ∧ c.toNat ≤ 126) ∧
      (path = [] ∨ path.head? = some '/') ∧ '#' ∉ path ∧ '?' ∉ path ∧
      (∀ c ∈ path, 33 ≤ c.toNat ∧ c.toNat ≤ 126) ∧
      (∀ c ∈ f, 33 ≤ c.toNat ∧ c.toNat ≤ 126) := by
  rw [validHttpUrl] at h
  cases hm : splitFirst ':' u with
  | none => rw [hm] at h; simp at h
  | some pr =>
      obtain ⟨sch, rest⟩ := pr
      rw [hm] at h
      simp only [Bool.and_eq_true, decide_eq_true_eq] at h
      obtain ⟨hall0, ⟨⟨halpha, hsch⟩, hslash⟩, hhne, hlb, hrb⟩ := h
      have hall : ∀ c ∈ u, 33 ≤ c.toNat ∧ c.toNat ≤ 126 := by
        intro c hc
        have hx := List.all_eq_true.mp hall0 c hc
        simpa using hx
      obtain ⟨hu1, _⟩ := splitFirst_eq_some ':' u sch rest hm
      have hschne : sch ≠ [] := by
        intro he
        rw [he] at hsch
        rcases hsch with h1 | h1 <;> simp at h1
      have hsplit := urlsplit_valid_compute u sch rest hm halpha hschne hall
        hslash hlb hrb
      obtain ⟨path, q, f, heq, hp1, hp2, hqh, hphead, hpm, hqm, hfm⟩ :=
        urlsplitFinish_parts (sch.map asciiLower)
          ((rest.drop 2).takeWhile nonDelim) ((rest.drop 2).dropWhile nonDelim)
      have hrestmem : ∀ c ∈ rest, c ∈ u := by
        intro c hc
        rw [hu1]
        exact List.mem_append_right _ (List.mem_cons_of_mem _ hc)
      have hd2mem : ∀ c ∈ rest.drop 2, c ∈ u :=
        fun c hc => hrestmem c ((List.drop_sublist 2 rest).subset hc)
      have hhostmem : ∀ c ∈ (rest.drop 2).takeWhile nonDelim, c ∈ u :=
        fun c hc => hd2mem c ((List.takeWhile_sublist _).subset hc)
      have hTmem : ∀ c ∈ (rest.drop 2).dropWhile nonDelim, c ∈ u :=
        fun c hc => hd2mem c ((List.dropWhile_sublist _).subset hc)
      have hlschne : sch.map asciiLower ≠ [] := by
        rcases hsch with h1 | h1 <;> rw [h1] <;> simp
      have hph : path = [] ∨ path.head? = some '/' := by
        rcases hphead with hpe | hphead
        · exact Or.inl hpe
        · cases hpz : path with
          | nil => exact Or.inl rfl
          | cons pc pt =>
              right
              rw [hpz] at hphead
              have hpcn : nonDelim pc = false :=
                head?_dropWhile_not nonDelim (rest.drop 2) pc hphead.symm
              rcases nonDelim_false pc hpcn with rfl | rfl | rfl
              · rfl
              · exact absurd (hpz ▸ List.mem_cons_self '?' pt) hp2
              · exact absurd (hpz ▸ List.mem_cons_self '#' pt) hp1
      have hune : u ≠ [] := by rw [hu1]; simp
      have hfilt : u.filter (fun c => 32 ≤ c.toNat) = u :=
        List.filter_eq_self.mpr (fun c hc => by
          have hg := hall c hc
          simp only [decide_eq_true_eq]
          omega)
      have hstrip : pyStrip (u.filter (fun c => 32 ≤ c.toNat)) = u := by
        rw [hfilt]
        exact pyStrip_eq_self_of_graphic u hall
      refine ⟨sch.map asciiLower, (rest.drop 2).takeWhile nonDelim, path, q, f,
        hsch, ?_, hhne, fun c hc => List.mem_takeWhile_imp hc, hlb, hrb,
        fun c hc => hall c (hhostmem c hc), hph, hp1, hp2,
        fun c hc => hall c (hTmem c (hpm c hc)),
        fun c hc => hall c (hTmem c (hfm c hc))⟩
      simp only [normalize_url]
      rw [hstrip, if_neg hune, if_neg hune, hsplit, heq]
      simp only
      rw [if_neg hlschne, if_neg (not_not_intro hsch)]


/-- C6 (counterexample). The claim says normalization strips all control
characters from the input. It only removes code points below 32: DEL
(U+007F), a Unicode control character, survives into the successful
output unchanged. -/
theorem normalize_url_control_cex :
    normalize_url ("http://a/".data ++ Char.ofNat 127 :: "b".data)
      = .ok ("http://a/".data ++ Char.ofNat 127 :: "b".data) ∧
    Char.ofNat 127 ∈ "http://a/".data ++ Char.ofNat 127 :: "b".data ∧
    isUnicodeControl (Char.ofNat 127) = true :=
  ⟨by rfl, by decide, by decide⟩

/-- C6 (amended). `normalize_url`: (1) every successful output has no
character below code point 32 (C0 controls and the stripped input ones are
gone; DEL and C1 controls are not removed, see the counterexample) and
starts with `http:` or `https:`; (2) the output reassembles the split of
the stripped input with the query re-encoded, and no query-parameter key
(or value) is dropped: re-parsing the re-encoded query gives back exactly
the parse of the input query; (3) on every valid absolute http/https URL
(graphic ASCII, all-letter scheme, nonempty bracket-free host) it succeeds
and is idempotent. -/
theorem normalize_url_spec :
    (∀ u v, normalize_url u = .ok v →
      (∀ c ∈ v, 32 ≤ c.toNat) ∧
      (∃ t, v = "http:".data ++ t ∨ v = "https:".data ++ t)) ∧
    (∀ u v, normalize_url u = .ok v →
      ∃ p, urlsplit (pyStrip (u.filter (fun c => 32 ≤ c.toNat))) = .ok p ∧
        v = urlunsplit ⟨p.scheme, p.netloc, p.path,
          urlencode (parse_qsl p.query), p.fragment⟩ ∧
        parse_qsl (urlencode (parse_qsl p.query)) = parse_qsl p.query) ∧
    (∀ u, validHttpUrl u = true →
      ∃ v, normalize_url u = .ok v ∧ normalize_url v = .ok v) := by
  refine ⟨?_, ?_, ?_⟩
  · intro u v h
    obtain ⟨p, hsp, hsch, hv⟩ := normalize_url_ok_shape u v h
    obtain ⟨hs, hn, hp, hq, hf⟩ := urlsplit_mem _ p hsp
    have hsmem : ∀ c ∈ pyStrip (u.filter (fun c => 32 ≤ c.toNat)),
        32 ≤ c.toNat := by
      intro c hc
      have hc2 := mem_pyStrip _ c hc
      rw [List.mem_filter] at hc2
      simpa using hc2.2
    constructor
    · intro c hc
      rw [hv] at hc
      rcases urlunsplit_mem _ c hc with
        hcs | hcn | hcp | hcq | hcf | rfl | rfl | rfl | rfl
      · obtain ⟨c0, hc0, rfl⟩ := hs c hcs
        have h0 := hsmem c0 hc0
        rcases asciiLower_toNat c0 with he | he <;> omega
      · exact hsmem c (hn c hcn)
      · exact hsmem c (hp c hcp)
      · have h1 := (urlencode_chars _ c hcq).1
        omega
      · exact hsmem c (hf c hcf)
      · decide
      · decide
      · decide
      · decide
    · have hschne : p.scheme ≠ [] := by
        rcases hsch with h1 | h1 <;> rw [h1] <;> simp
      obtain ⟨t, ht⟩ := urlunsplit_scheme_shape ⟨p.scheme, p.netloc, p.path,
        urlencode (parse_qsl p.query), p.fragment⟩ hschne
      refine ⟨t, ?_⟩
      rcases hsch with h1 | h1
      · left
        rw [hv, ht, h1]
        rfl
      · right
        rw [hv, ht, h1]
        rfl
  · intro u v h
    obtain ⟨p, hsp, hsch, hv⟩ := normalize_url_ok_shape u v h
    exact ⟨p, hsp, hv, by rw [parse_qsl_urlencode]⟩
  · intro u hval
    obtain ⟨lsch, host, path, q, f, hl, heq, hh, hhd, hlb, hrb, hhg, hph,
      hp1, hp2, hpg, hfg⟩ := normalize_url_of_valid u hval
    exact ⟨_, heq, normalize_url_fixed lsch host path f (parse_qsl q) hl hh hhd
      hlb hrb hhg hph hp1 hp2 hpg hfg⟩

/-- C6 witness: the amended theorem applied at concrete inputs. -/
theorem normalize_url_spec_witness :
    (normalize_url "HTTP://Ex/a/b?#z".data = .ok "http://Ex/a/b#z".data ∧
      (∀ c ∈ "http://Ex/a/b#z".data, 32 ≤ c.toNat) ∧
      (∃ t, "http://Ex/a/b#z".data = "http:".data ++ t ∨
        "http://Ex/a/b#z".data = "https:".data ++ t) ∧
      (∃ p, urlsplit (pyStrip ("HTTP://Ex/a/b?#z".data.filter
          (fun c => 32 ≤ c.toNat))) = .ok p ∧
        "http://Ex/a/b#z".data = urlunsplit ⟨p.scheme, p.netloc, p.path,
          urlencode (parse_qsl p.query), p.fragment⟩ ∧
        parse_qsl (urlencode (parse_qsl p.query)) = parse_qsl p.query)) ∧
    validHttpUrl "HTTP://Ex/a/b?#z".data = true ∧
    (∃ v, normalize_url "HTTP://Ex/a/b?#z".data = .ok v ∧
      normalize_url v = .ok v) := by
  have hok : normalize_url "HTTP://Ex/a/b?#z".data
      = .ok "http://Ex/a/b#z".data := by rfl
  refine ⟨⟨hok, (normalize_url_spec.1 _ _ hok).1,
      (normalize_url_spec.1 _ _ hok).2, normalize_url_spec.2.1 _ _ hok⟩,
    by decide, normalize_url_spec.2.2 _ (by decide)⟩

end Scrapeme
